import Mathlib

/-!
Verification of the duplicate-file detector in `yadd` (files
`yadd/duplicates.py`, `yadd/__init__.py`, `yadd/util.py`, `yadd/file.py`).

The development shallowly embeds the program over
* a filesystem modelled as a total map `fs : String → List Nat`
  from paths to byte contents,
* a digest modelled as an arbitrary function `hash : List Nat → String`
  (the code's sha256 hex digest is an external library call; every theorem
  below holds for every choice of `hash`),
* Python's unbounded recursion modelled with an explicit fuel that is
  proved sufficient.

`sorted()` on lists of strings / tuples is modelled by an insertion sort
together with the Python tuple/string comparison order (code points,
lexicographic); since that order is antisymmetric, ties are only between
identical elements and any sorted permutation is the unique one Python
returns.
-/

namespace Yadd

/-! ## Generic comparison machinery (Python `sorted` order) -/

/-- Three-way comparison on naturals, as Python compares ints. -/
def cmpNat (a b : Nat) : Ordering :=
  if a < b then .lt else if b < a then .gt else .eq

/-- Three-way comparison on characters by code point, as Python compares
the characters of a string. -/
def cmpChar (a b : Char) : Ordering :=
  cmpNat a.toNat b.toNat

/-- Lexicographic three-way comparison on lists, as Python compares
strings (character lists) and lists of strings. -/
def cmpList {α : Type} (c : α → α → Ordering) : List α → List α → Ordering
  | [], [] => .eq
  | [], _ :: _ => .lt
  | _ :: _, [] => .gt
  | a :: as, b :: bs =>
    match c a b with
    | .lt => .lt
    | .gt => .gt
    | .eq => cmpList c as bs

/-- Python string comparison (by code points, lexicographic). -/
def cmpStr (a b : String) : Ordering := cmpList cmpChar a.data b.data

/-- Lexicographic comparison of pairs, as Python compares tuples. -/
def cmpProd {α β : Type} (cA : α → α → Ordering) (cB : β → β → Ordering)
    (a b : α × β) : Ordering :=
  match cA a.1 b.1 with
  | .lt => .lt
  | .gt => .gt
  | .eq => cB a.2 b.2

/-- The three laws a comparison needs so that sorting by it is unique:
it detects equality, it is antisymmetric, and non-`gt` is transitive. -/
structure CmpOK {α : Type} (c : α → α → Ordering) : Prop where
  eq_iff : ∀ a b, c a b = .eq ↔ a = b
  symm : ∀ a b, c a b = (c b a).swap
  le_trans : ∀ a b x, c a b ≠ .gt → c b x ≠ .gt → c a x ≠ .gt

theorem CmpOK.gt_iff_lt {α : Type} {c : α → α → Ordering} (hc : CmpOK c)
    (a b : α) : c a b = .gt ↔ c b a = .lt := by
  rw [hc.symm a b]
  cases c b a <;> simp [Ordering.swap]

theorem cmpNat_eq_iff (a b : Nat) : cmpNat a b = .eq ↔ a = b := by
  unfold cmpNat
  split_ifs <;> simp <;> omega

theorem cmpNat_gt_iff (a b : Nat) : cmpNat a b = .gt ↔ b < a := by
  unfold cmpNat
  split_ifs <;> simp <;> omega

theorem cmpNat_ok : CmpOK cmpNat := by
  refine ⟨cmpNat_eq_iff, ?_, ?_⟩
  · intro a b
    unfold cmpNat
    rcases Nat.lt_trichotomy a b with h | h | h
    · have h' : ¬ b < a := by omega
      simp [h, h', Ordering.swap]
    · subst h
      simp [Ordering.swap]
    · have h' : ¬ a < b := by omega
      simp [h, h', Ordering.swap]
  · intro a b x hab hbx
    rw [Ne, cmpNat_gt_iff] at hab hbx ⊢
    omega

theorem cmpChar_ok : CmpOK cmpChar := by
  refine ⟨?_, fun a b => cmpNat_ok.symm _ _, fun a b x => cmpNat_ok.le_trans _ _ _⟩
  intro a b
  rw [cmpChar, cmpNat_eq_iff]
  constructor
  · intro h
    exact Char.eq_of_val_eq (UInt32.ext h)
  · intro h
    rw [h]

theorem cmpList_eq_iff {α : Type} {c : α → α → Ordering} (hc : CmpOK c)
    (a b : List α) : cmpList c a b = .eq ↔ a = b := by
  induction a generalizing b with
  | nil => cases b <;> simp [cmpList]
  | cons x xs ih =>
    cases b with
    | nil => simp [cmpList]
    | cons y ys =>
      simp only [cmpList]
      constructor
      · intro h
        cases hxy : c x y <;> rw [hxy] at h <;> simp at h
        rw [(hc.eq_iff x y).mp hxy, (ih ys).mp h]
      · intro h
        injection h with h1 h2
        subst h1
        subst h2
        rw [(hc.eq_iff x x).mpr rfl]
        simpa using (ih xs).mpr rfl

theorem cmpList_ok {α : Type} {c : α → α → Ordering} (hc : CmpOK c) :
    CmpOK (cmpList c) := by
  refine ⟨cmpList_eq_iff hc, ?_, ?_⟩
  · intro a
    induction a with
    | nil =>
      intro b
      cases b <;> simp [cmpList, Ordering.swap]
    | cons x xs ih =>
      intro b
      cases b with
      | nil => simp [cmpList, Ordering.swap]
      | cons y ys =>
        simp only [cmpList]
        rw [hc.symm x y]
        cases c y x <;> simp [Ordering.swap]
        exact ih ys
  · intro a
    induction a with
    | nil =>
      intro b x _ hbx
      cases b with
      | nil => exact hbx
      | cons q qs => cases x <;> simp [cmpList]
    | cons p ps ih =>
      intro b x hab hbx
      cases b with
      | nil => simp [cmpList] at hab
      | cons q qs =>
        cases x with
        | nil => simp [cmpList] at hbx
        | cons r rs =>
          simp only [cmpList] at hab hbx ⊢
          cases hpq : c p q <;> rw [hpq] at hab
          · -- p < q
            cases hqr : c q r <;> rw [hqr] at hbx
            · -- q < r : show c p r = lt; if it were eq or gt we contradict
              cases hpr : c p r
              · simp
              · -- c p r = eq: p = r, so q < p while p < q, contradiction
                exfalso
                have hpr' := (hc.eq_iff p r).mp hpr
                subst hpr'
                have h5 := (hc.gt_iff_lt p q).mpr hqr
                rw [hpq] at h5
                cases h5
              · -- c p r = gt: then r < p; chain r < p < q contradicts q < r
                exfalso
                have h1 := hc.le_trans r p q
                  (by rw [(hc.gt_iff_lt p r).mp hpr]; simp) (by rw [hpq]; simp)
                exact h1 ((hc.gt_iff_lt r q).mpr hqr)
            · -- q = r
              have hqr' := (hc.eq_iff q r).mp hqr
              subst hqr'
              rw [hpq]
              simp
            · cases hbx rfl
          · -- p = q
            have hpq' := (hc.eq_iff p q).mp hpq
            subst hpq'
            cases hqr : c p r <;> rw [hqr] at hbx
            · simp
            · simp only []
              exact ih qs rs hab hbx
            · exact absurd rfl hbx
          · cases hab rfl

theorem cmpStr_ok : CmpOK cmpStr := by
  have h := cmpList_ok cmpChar_ok
  refine ⟨?_, fun a b => h.symm _ _, fun a b x => h.le_trans _ _ _⟩
  intro a b
  rw [cmpStr, cmpList_eq_iff cmpChar_ok]
  constructor
  · intro hd
    exact String.ext hd
  · intro hd
    rw [hd]

theorem cmpProd_eq_iff {α β : Type} {cA : α → α → Ordering} {cB : β → β → Ordering}
    (hA : CmpOK cA) (hB : CmpOK cB) (a b : α × β) :
    cmpProd cA cB a b = .eq ↔ a = b := by
  simp only [cmpProd]
  constructor
  · intro h
    cases h1 : cA a.1 b.1 <;> rw [h1] at h <;> simp at h
    have e1 := (hA.eq_iff a.1 b.1).mp h1
    have e2 := (hB.eq_iff a.2 b.2).mp h
    cases a
    cases b
    simp_all
  · intro h
    subst h
    rw [(hA.eq_iff a.1 a.1).mpr rfl]
    simpa using (hB.eq_iff a.2 a.2).mpr rfl

theorem cmpProd_ok {α β : Type} {cA : α → α → Ordering} {cB : β → β → Ordering}
    (hA : CmpOK cA) (hB : CmpOK cB) : CmpOK (cmpProd cA cB) := by
  refine ⟨cmpProd_eq_iff hA hB, ?_, ?_⟩
  · intro a b
    simp only [cmpProd]
    rw [hA.symm a.1 b.1]
    cases cA b.1 a.1 <;> simp [Ordering.swap]
    exact hB.symm a.2 b.2
  · intro a b x hab hbx
    simp only [cmpProd] at hab hbx ⊢
    cases h1 : cA a.1 b.1 <;> rw [h1] at hab
    · cases h2 : cA b.1 x.1 <;> rw [h2] at hbx
      · cases h3 : cA a.1 x.1
        · simp
        · -- cA a.1 x.1 = eq: a.1 = x.1, so b < x = a while a < b, contradiction
          exfalso
          have e := (hA.eq_iff a.1 x.1).mp h3
          rw [e] at h1
          have h5 := (hA.gt_iff_lt b.1 x.1).mpr h1
          rw [h2] at h5
          cases h5
        · -- cA a.1 x.1 = gt: then x < a < b contradicts b < x
          exfalso
          have h4 := hA.le_trans x.1 a.1 b.1
            (by rw [(hA.gt_iff_lt a.1 x.1).mp h3]; simp) (by rw [h1]; simp)
          exact h4 ((hA.gt_iff_lt x.1 b.1).mpr h2)
      · have e := (hA.eq_iff b.1 x.1).mp h2
        rw [← e, h1]
        simp
      · cases hbx rfl
    · have e := (hA.eq_iff a.1 b.1).mp h1
      cases h2 : cA b.1 x.1 <;> rw [h2] at hbx <;> rw [e, h2]
      · simp
      · simp only []
        exact hB.le_trans _ _ _ hab hbx
      · exact absurd rfl hbx
    · cases hab rfl

/-- Boolean `a ≤ b` induced by a three-way comparison; this is the order
Python's `sorted` produces. -/
def cmpLe {α : Type} (c : α → α → Ordering) (a b : α) : Bool :=
  match c a b with
  | .gt => false
  | _ => true

theorem cmpLe_iff {α : Type} (c : α → α → Ordering) (a b : α) :
    cmpLe c a b = true ↔ c a b ≠ .gt := by
  unfold cmpLe
  cases c a b <;> simp

theorem cmpLe_total {α : Type} {c : α → α → Ordering} (hc : CmpOK c) (a b : α) :
    cmpLe c a b = true ∨ cmpLe c b a = true := by
  rw [cmpLe_iff, cmpLe_iff]
  cases h : c a b with
  | lt => left; simp
  | eq => left; simp
  | gt =>
    right
    rw [(hc.gt_iff_lt a b).mp h]
    simp

theorem cmpLe_trans {α : Type} {c : α → α → Ordering} (hc : CmpOK c) {a b x : α}
    (h1 : cmpLe c a b = true) (h2 : cmpLe c b x = true) : cmpLe c a x = true := by
  rw [cmpLe_iff] at h1 h2 ⊢
  exact hc.le_trans a b x h1 h2

theorem cmpLe_antisymm {α : Type} {c : α → α → Ordering} (hc : CmpOK c) {a b : α}
    (h1 : cmpLe c a b = true) (h2 : cmpLe c b a = true) : a = b := by
  rw [cmpLe_iff] at h1 h2
  cases h : c a b with
  | eq => exact (hc.eq_iff a b).mp h
  | gt => exact absurd h h1
  | lt => exact absurd ((hc.gt_iff_lt b a).mpr h) h2

/-! ## Insertion sort: the model of Python's `sorted` -/

/-- Insert `x` into `l` after every element `≤ x`. -/
def insertSorted {α : Type} (le : α → α → Bool) (x : α) : List α → List α
  | [] => [x]
  | y :: ys => if le y x then y :: insertSorted le x ys else x :: y :: ys

/-- Sort a list ascending by `le`; models Python's `sorted`. -/
def sortBy {α : Type} (le : α → α → Bool) : List α → List α
  | [] => []
  | x :: xs => insertSorted le x (sortBy le xs)

theorem insertSorted_perm {α : Type} (le : α → α → Bool) (x : α) (l : List α) :
    (insertSorted le x l).Perm (x :: l) := by
  induction l with
  | nil => simp [insertSorted]
  | cons y ys ih =>
    simp only [insertSorted]
    split
    · exact (ih.cons y).trans (List.Perm.swap x y ys)
    · exact List.Perm.refl _

theorem sortBy_perm {α : Type} (le : α → α → Bool) (l : List α) :
    (sortBy le l).Perm l := by
  induction l with
  | nil => simp [sortBy]
  | cons x xs ih =>
    exact (insertSorted_perm le x (sortBy le xs)).trans (ih.cons x)

theorem mem_sortBy {α : Type} (le : α → α → Bool) (l : List α) (a : α) :
    a ∈ sortBy le l ↔ a ∈ l :=
  (sortBy_perm le l).mem_iff

theorem insertSorted_pairwise {α : Type} {le : α → α → Bool}
    (htot : ∀ a b, le a b = true ∨ le b a = true)
    (htrans : ∀ a b x, le a b = true → le b x = true → le a x = true)
    (x : α) (l : List α) (h : l.Pairwise (fun a b => le a b = true)) :
    (insertSorted le x l).Pairwise (fun a b => le a b = true) := by
  induction l with
  | nil => simp [insertSorted]
  | cons y ys ih =>
    rw [List.pairwise_cons] at h
    obtain ⟨hy, hys⟩ := h
    simp only [insertSorted]
    split
    · rename_i hle
      rw [List.pairwise_cons]
      refine ⟨?_, ih hys⟩
      intro a ha
      rw [(insertSorted_perm le x ys).mem_iff] at ha
      cases ha with
      | head => exact hle
      | tail _ hmem => exact hy a hmem
    · rename_i hnot
      have hxy : le x y = true := by
        cases htot x y with
        | inl h => exact h
        | inr h => exact absurd h (by simpa using hnot)
      rw [List.pairwise_cons]
      constructor
      · intro a ha
        cases ha with
        | head => exact hxy
        | tail _ hmem => exact htrans x y a hxy (hy a hmem)
      · rw [List.pairwise_cons]
        exact ⟨hy, hys⟩

theorem sortBy_pairwise {α : Type} {le : α → α → Bool}
    (htot : ∀ a b, le a b = true ∨ le b a = true)
    (htrans : ∀ a b x, le a b = true → le b x = true → le a x = true)
    (l : List α) : (sortBy le l).Pairwise (fun a b => le a b = true) := by
  induction l with
  | nil => simp [sortBy]
  | cons x xs ih => exact insertSorted_pairwise htot htrans x _ ih

/-- Sorting by a lawful comparison is a function of the multiset of
elements only: permuted inputs sort to the same list. -/
theorem sortBy_eq_of_perm {α : Type} {c : α → α → Ordering} (hc : CmpOK c)
    {l₁ l₂ : List α} (h : l₁.Perm l₂) :
    sortBy (cmpLe c) l₁ = sortBy (cmpLe c) l₂ := by
  have hperm : (sortBy (cmpLe c) l₁).Perm (sortBy (cmpLe c) l₂) :=
    ((sortBy_perm _ l₁).trans h).trans (sortBy_perm _ l₂).symm
  have hs₁ := sortBy_pairwise (cmpLe_total hc) (fun a b x => cmpLe_trans hc) l₁
  have hs₂ := sortBy_pairwise (cmpLe_total hc) (fun a b x => cmpLe_trans hc) l₂
  exact @List.eq_of_perm_of_sorted _ (fun a b => cmpLe c a b = true)
    ⟨fun a b h1 h2 => cmpLe_antisymm hc h1 h2⟩ _ _ hperm hs₁ hs₂

/-! ## Embedding of `yadd/duplicates.py`

An indicator value is either an int (the `size` indicator) or a hex digest
string (block and full-file hashes); an indicator is a `(kind, value)`
pair, and index keys are tuples of indicators. -/

abbrev IndVal := Nat ⊕ String

abbrev Indicator := String × IndVal

abbrev Key := List Indicator

/-- A value of `files_by_indicator_prefixes`: either a single file
(provisional owner, stored by its path since a `_File` is determined by
its path and the filesystem) or the `...` spill sentinel. -/
inductive Entry where
  | owned (p : String)
  | spilled
deriving DecidableEq

/-- `_block_size = 1 << 12` from `duplicates.py`. -/
def blockSize : Nat := 1 <<< 12

/-- `hash_file_part(path, pos, size)` streams at most `size` bytes starting
at `pos`, stopping early at end of file (`util.copy_file_part`); this is
the byte region it digests. -/
def readPart (c : List Nat) (pos len : Nat) : List Nat :=
  (c.drop pos).take len

/-- The block-indicator loop of `iter_indicators`: for `i = 0, 1, 2, …`,
`pos = ((1 << i) - 1) * _block_size`, `read_size = min(_block_size,
size - pos)`, stopping once `read_size <= 0`. The fuel argument only makes
the recursion structural; `blocksFrom_fuel` below shows any fuel of at
least `size + 1 - i` computes the same list. -/
def blocksFrom (hash : List Nat → String) (c : List Nat) : Nat → Nat → List Indicator
  | 0, _ => []
  | fuel+1, i =>
    let size := c.length
    let pos := ((1 <<< i) - 1) * blockSize
    if size ≤ pos then []
    else ("block at " ++ toString pos,
          Sum.inr (hash (readPart c pos (min blockSize (size - pos)))))
         :: blocksFrom hash c fuel (i+1)

/-- The full indicator sequence of `iter_indicators` for a file with
content `c`: `('size', size)`, then the block indicators, then
`('file hash', digest of the whole file)`. -/
def indicators (hash : List Nat → String) (c : List Nat) : List Indicator :=
  ("size", Sum.inl c.length)
    :: (blocksFrom hash c (c.length + 1) 0
        ++ [("file hash", Sum.inr (hash (readPart c 0 c.length)))])

/-- `file.get_indicators_prefix(depth)` as a tuple: the memoized lazy
iterator returns exactly the first `depth` indicators, or all of them if
fewer exist. -/
def keyAt (hash : List Nat → String) (fs : String → List Nat) (p : String) (d : Nat) : Key :=
  (indicators hash (fs p)).take d

/-- The mutable state of `find_duplicates`:
`prefixes` is `files_by_indicator_prefixes` (a pure dictionary used only
via lookups), `buckets` is `duplicate_paths_by_indicators` (an
insertion-ordered association list, since it is iterated to produce
output), and the two counters record how often
`duplicate_found_progress_fn` and `file_processed_progress_fn` ran. -/
@[ext]
structure DupState where
  prefixes : Key → Option Entry
  buckets : List (Key × List String)
  dupEvents : Nat
  filesProcessed : Nat

def initState : DupState :=
  { prefixes := fun _ => none, buckets := [], dupEvents := 0, filesProcessed := 0 }

/-- `duplicate_paths_by_indicators[indicators].append(path)` on a
`defaultdict(list)`. -/
def bucketAppend (bs : List (Key × List String)) (k : Key) (p : String) :
    List (Key × List String) :=
  match bs with
  | [] => [(k, [p])]
  | (k', ps) :: rest =>
    if k' = k then (k', ps ++ [p]) :: rest else (k', ps) :: bucketAppend rest k p

/-- Reading a bucket, with `[]` for an absent key (`defaultdict` view). -/
def bucketGet (bs : List (Key × List String)) (k : Key) : List String :=
  match bs with
  | [] => []
  | (k', ps) :: rest => if k' = k then ps else bucketGet rest k

def setOwner (st : DupState) (k : Key) (p : String) : DupState :=
  { st with prefixes := fun k' => if k' = k then some (.owned p) else st.prefixes k' }

def setSpilled (st : DupState) (k : Key) : DupState :=
  { st with prefixes := fun k' => if k' = k then some .spilled else st.prefixes k' }

/-- `insert(file, depth)` from `find_duplicates`, with explicit fuel for
the recursion (`insertFuel_fuel_irrelevant` proves any sufficient fuel
computes the same result).  Mirrors the Python exactly: take the depth
prefix of the file's indicators; if it is shorter than `depth` the
indicators are exhausted and the path is appended to its bucket (firing
the duplicate-found progress callback); otherwise an absent entry makes
the file the provisional owner, and an occupied entry sends the file one
level deeper — and, when the displaced entry was a file rather than the
spill sentinel, marks the prefix spilled and re-inserts the displaced
file one level deeper as well. -/
def insertFuel (hash : List Nat → String) (fs : String → List Nat) :
    Nat → DupState → String → Nat → DupState
  | 0, st, _, _ => st
  | fuel+1, st, p, depth =>
    let inds := keyAt hash fs p depth
    if inds.length < depth then
      { st with buckets := bucketAppend st.buckets inds p,
                dupEvents := st.dupEvents + 1 }
    else
      match st.prefixes inds with
      | none => setOwner st inds p
      | some e =>
        let st1 := insertFuel hash fs fuel st p (depth+1)
        match e with
        | .spilled => st1
        | .owned q => insertFuel hash fs fuel (setSpilled st1 inds) q (depth+1)

/-- Length of a file's full indicator tuple. -/
def lenT (hash : List Nat → String) (fs : String → List Nat) (p : String) : Nat :=
  (indicators hash (fs p)).length

/-- One iteration of the `for path in paths_iter` loop: `insert(_File(path,
iter_indicators()), 1)` followed by `file_processed_progress_fn()`. -/
def stepIns (hash : List Nat → String) (fs : String → List Nat)
    (st : DupState) (p : String) : DupState :=
  let st' := insertFuel hash fs (lenT hash fs p + 1) st p 1
  { st' with filesProcessed := st'.filesProcessed + 1 }

/-- The whole insertion loop of `find_duplicates`. -/
def processAll (hash : List Nat → String) (fs : String → List Nat)
    (paths : List String) : DupState :=
  paths.foldl (stepIns hash fs) initState

/-- An output group: `(sorted(paths), size, full_hash)`. -/
abbrev DupGroup := List String × IndVal × IndVal

/-- Python string `<=`, used by `sorted(paths)`. -/
def strLe : String → String → Bool := cmpLe cmpStr

/-- Comparison of indicator values.  Within one run the compared positions
always hold the same variant (both sizes or both digests), matching
Python's int/str comparisons; across variants any fixed order works, and
ints are placed first. -/
def valCmp : IndVal → IndVal → Ordering
  | Sum.inl m, Sum.inl n => cmpNat m n
  | Sum.inl _, Sum.inr _ => .lt
  | Sum.inr _, Sum.inl _ => .gt
  | Sum.inr s, Sum.inr t => cmpStr s t

theorem valCmp_ok : CmpOK valCmp := by
  constructor
  · intro a b
    cases a <;> cases b <;> simp [valCmp]
    · rw [cmpNat_eq_iff]
    · rw [(cmpStr_ok.eq_iff _ _)]
  · intro a b
    cases a <;> cases b <;> simp [valCmp, Ordering.swap]
    · exact cmpNat_ok.symm _ _
    · exact cmpStr_ok.symm _ _
  · intro a b x hab hbx
    cases a <;> cases b <;> cases x <;> simp [valCmp] at hab hbx ⊢
    · exact cmpNat_ok.le_trans _ _ _ hab hbx
    · exact cmpStr_ok.le_trans _ _ _ hab hbx

/-- Python tuple comparison on output triples, used by the final
`sorted(iter_duplicates())`. -/
def groupCmp : DupGroup → DupGroup → Ordering :=
  cmpProd (cmpList cmpStr) (cmpProd valCmp valCmp)

theorem groupCmp_ok : CmpOK groupCmp :=
  cmpProd_ok (cmpList_ok cmpStr_ok) (cmpProd_ok valCmp_ok valCmp_ok)

def groupLe : DupGroup → DupGroup → Bool := cmpLe groupCmp

/-- The triple `(sorted(paths), indicators[0][1], indicators[-1][1])`
yielded for one bucket.  Bucket keys are provably nonempty; the
`headD`/`getLastD` defaults model Python's `[0]`/`[-1]` indexing. -/
def bucketTriple (kv : Key × List String) : DupGroup :=
  (sortBy strLe kv.2, (kv.1.headD ("", Sum.inl 0)).2, (kv.1.getLastD ("", Sum.inl 0)).2)

/-- `iter_duplicates()`: one triple per bucket. -/
def iterDuplicates (st : DupState) : List DupGroup :=
  st.buckets.map bucketTriple

/-- `find_duplicates`: run the insertion loop, then return
`sorted(iter_duplicates())`. -/
def findDuplicates (hash : List Nat → String) (fs : String → List Nat)
    (paths : List String) : List DupGroup :=
  sortBy groupLe (iterDuplicates (processAll hash fs paths))

/-! ## Basic facts about the indicator sequence -/

theorem blockPos_ge (i : Nat) : i ≤ ((1 <<< i) - 1) * blockSize := by
  rw [Nat.one_shiftLeft]
  have h1 : i ≤ 2 ^ i - 1 := by
    have := Nat.lt_two_pow i
    omega
  calc i ≤ 2 ^ i - 1 := h1
    _ = (2 ^ i - 1) * 1 := (Nat.mul_one _).symm
    _ ≤ (2 ^ i - 1) * blockSize := Nat.mul_le_mul_left _ (by decide)

/-- Any two sufficient fuels compute the same block list. -/
theorem blocksFrom_fuel (hash : List Nat → String) (c : List Nat) :
    ∀ f₁ f₂ i, c.length ≤ i + f₁ → c.length ≤ i + f₂ →
    blocksFrom hash c f₁ i = blocksFrom hash c f₂ i := by
  intro f₁
  induction f₁ with
  | zero =>
    intro f₂ i h1 h2
    cases f₂ with
    | zero => rfl
    | succ g =>
      simp only [blocksFrom]
      rw [if_pos]
      have := blockPos_ge i
      omega
  | succ f ih =>
    intro f₂ i h1 h2
    cases f₂ with
    | zero =>
      simp only [blocksFrom]
      rw [if_pos]
      have := blockPos_ge i
      omega
    | succ g =>
      simp only [blocksFrom]
      by_cases hp : c.length ≤ ((1 <<< i) - 1) * blockSize
      · rw [if_pos hp, if_pos hp]
      · rw [if_neg hp, if_neg hp]
        have := blockPos_ge i
        exact congrArg _ (ih g (i+1) (by omega) (by omega))

/-- The number of block indicators depends only on the file size. -/
def blocksLen (size : Nat) : Nat → Nat → Nat
  | 0, _ => 0
  | fuel+1, i =>
    if size ≤ ((1 <<< i) - 1) * blockSize then 0
    else 1 + blocksLen size fuel (i+1)

theorem length_blocksFrom (hash : List Nat → String) (c : List Nat) :
    ∀ fuel i, (blocksFrom hash c fuel i).length = blocksLen c.length fuel i := by
  intro fuel
  induction fuel with
  | zero => intro i; rfl
  | succ f ih =>
    intro i
    simp only [blocksFrom, blocksLen]
    split
    · rfl
    · simp [ih (i+1), Nat.add_comm]

/-- The full tuple length of a file of size `s`: `2` plus the number of
in-range block offsets. -/
def tupLen (s : Nat) : Nat := 2 + blocksLen s (s+1) 0

theorem lenT_eq (hash : List Nat → String) (fs : String → List Nat) (p : String) :
    lenT hash fs p = tupLen (fs p).length := by
  unfold lenT tupLen indicators
  simp [length_blocksFrom]
  omega

theorem indicators_length (hash : List Nat → String) (c : List Nat) :
    (indicators hash c).length = tupLen c.length := by
  unfold tupLen indicators
  simp [length_blocksFrom]
  omega

theorem lenT_ge_two (hash : List Nat → String) (fs : String → List Nat) (p : String) :
    2 ≤ lenT hash fs p := by
  rw [lenT_eq]
  unfold tupLen
  omega

theorem readPart_zero_length (c : List Nat) : readPart c 0 c.length = c := by
  unfold readPart
  simp

theorem indicators_head? (hash : List Nat → String) (c : List Nat) :
    (indicators hash c).head? = some ("size", Sum.inl c.length) := rfl

theorem indicators_getLast? (hash : List Nat → String) (c : List Nat) :
    (indicators hash c).getLast? = some ("file hash", Sum.inr (hash c)) := by
  unfold indicators
  rw [readPart_zero_length, ← List.cons_append, List.getLast?_concat]

theorem keyAt_length (hash : List Nat → String) (fs : String → List Nat)
    (p : String) (d : Nat) : (keyAt hash fs p d).length = min d (lenT hash fs p) := by
  unfold keyAt lenT
  simp

theorem keyAt_head? (hash : List Nat → String) (fs : String → List Nat)
    (p : String) {d : Nat} (hd : 1 ≤ d) :
    (keyAt hash fs p d).head? = some ("size", Sum.inl (fs p).length) := by
  unfold keyAt
  rw [List.head?_take, if_neg (by omega), indicators_head?]

/-- Files whose indicator tuples agree on any nonempty prefix have the
same size and hence indicator sequences of the same length. -/
theorem lenT_eq_of_keyAt_eq (hash : List Nat → String) (fs : String → List Nat)
    {p q : String} {d : Nat} (hd : 1 ≤ d)
    (h : keyAt hash fs p d = keyAt hash fs q d) :
    lenT hash fs p = lenT hash fs q := by
  have h1 := keyAt_head? hash fs p hd
  have h2 := keyAt_head? hash fs q hd
  rw [h, h2] at h1
  injection h1 with h3
  injection h3 with h4 h5
  injection h5 with h6
  rw [lenT_eq, lenT_eq, h6]

/-- A key shaped like a complete indicator tuple: it starts with a `size`
indicator and has exactly the full length that size dictates. -/
def fullShaped (k : Key) : Prop :=
  ∃ s, k.head? = some ("size", Sum.inl s) ∧ k.length = tupLen s

theorem fullShaped_indicators (hash : List Nat → String) (c : List Nat) :
    fullShaped (indicators hash c) :=
  ⟨c.length, indicators_head? hash c, indicators_length hash c⟩

/-- The exhaustion test of `insert`: the prefix is shorter than the
requested depth iff the whole tuple is shorter than the depth. -/
theorem keyAt_short_iff (hash : List Nat → String) (fs : String → List Nat)
    (p : String) (d : Nat) :
    (keyAt hash fs p d).length < d ↔ lenT hash fs p < d := by
  rw [keyAt_length]
  omega

theorem keyAt_of_lenT_lt (hash : List Nat → String) (fs : String → List Nat)
    (p : String) {d : Nat} (h : lenT hash fs p ≤ d) :
    keyAt hash fs p d = indicators hash (fs p) :=
  List.take_of_length_le h

/-- A full-shaped prefix key is the whole tuple. -/
theorem eq_fullKey_of_fullShaped (hash : List Nat → String) (fs : String → List Nat)
    {p : String} {d : Nat} (hd : 1 ≤ d) (hfull : fullShaped (keyAt hash fs p d)) :
    keyAt hash fs p d = indicators hash (fs p) ∧ lenT hash fs p ≤ d := by
  obtain ⟨s, hh, hl⟩ := hfull
  rw [keyAt_head? hash fs p hd] at hh
  injection hh with hh1
  injection hh1 with hh2 hh3
  injection hh3 with hh4
  subst hh4
  rw [keyAt_length] at hl
  have hlen : lenT hash fs p = tupLen (fs p).length := lenT_eq hash fs p
  have hle : lenT hash fs p ≤ d := by omega
  exact ⟨keyAt_of_lenT_lt hash fs p hle, hle⟩

theorem fullKey_keyAt (hash : List Nat → String) (fs : String → List Nat)
    (p : String) : keyAt hash fs p (lenT hash fs p) = indicators hash (fs p) :=
  keyAt_of_lenT_lt hash fs p (Nat.le_refl _)

theorem keyAt_ne_nil (hash : List Nat → String) (fs : String → List Nat)
    (p : String) {d : Nat} (hd : 1 ≤ d) : keyAt hash fs p d ≠ [] := by
  intro h
  have := keyAt_head? hash fs p hd
  rw [h] at this
  cases this

/-- Prefixes of two files that collide at depth `d` agree at all depths
up to `d`. -/
theorem keyAt_mono_eq (hash : List Nat → String) (fs : String → List Nat)
    {p q : String} {d j : Nat} (hj : j ≤ d)
    (h : keyAt hash fs p d = keyAt hash fs q d) :
    keyAt hash fs p j = keyAt hash fs q j := by
  unfold keyAt at *
  have hp : List.take j (indicators hash (fs p))
      = List.take j (List.take d (indicators hash (fs p))) := by
    rw [List.take_take, Nat.min_eq_left hj]
  have hq : List.take j (indicators hash (fs q))
      = List.take j (List.take d (indicators hash (fs q))) := by
    rw [List.take_take, Nat.min_eq_left hj]
  rw [hp, hq, h]

/-! ## Small-step lemmas for the state operations -/

theorem setOwner_buckets (st : DupState) (k : Key) (p : String) :
    (setOwner st k p).buckets = st.buckets := rfl

theorem setSpilled_buckets (st : DupState) (k : Key) :
    (setSpilled st k).buckets = st.buckets := rfl

theorem setOwner_prefixes (st : DupState) (k k' : Key) (p : String) :
    (setOwner st k p).prefixes k' = if k' = k then some (.owned p) else st.prefixes k' := rfl

theorem setSpilled_prefixes (st : DupState) (k k' : Key) :
    (setSpilled st k).prefixes k' = if k' = k then some .spilled else st.prefixes k' := rfl

theorem bucketGet_append_self (bs : List (Key × List String)) (k : Key) (p : String) :
    bucketGet (bucketAppend bs k p) k = bucketGet bs k ++ [p] := by
  induction bs with
  | nil => simp [bucketAppend, bucketGet]
  | cons kv rest ih =>
    obtain ⟨k', ps⟩ := kv
    simp only [bucketAppend, bucketGet]
    by_cases h : k' = k
    · simp [bucketGet, h]
    · simp [bucketGet, h, ih]

theorem bucketGet_append_ne (bs : List (Key × List String)) {k k₀ : Key} (p : String)
    (h : k ≠ k₀) : bucketGet (bucketAppend bs k₀ p) k = bucketGet bs k := by
  induction bs with
  | nil => simp [bucketAppend, bucketGet, Ne.symm h]
  | cons kv rest ih =>
    obtain ⟨k', ps⟩ := kv
    simp only [bucketAppend]
    by_cases h1 : k' = k₀
    · rw [if_pos h1]
      simp only [bucketGet]
      have h2 : ¬ k' = k := by rw [h1]; exact Ne.symm h
      rw [if_neg h2, if_neg h2]
    · rw [if_neg h1]
      simp only [bucketGet]
      by_cases h2 : k' = k
      · rw [if_pos h2, if_pos h2]
      · rw [if_neg h2, if_neg h2, ih]

theorem mem_bucketGet_append (bs : List (Key × List String)) (k k₀ : Key)
    (p x : String) (h : x ∈ bucketGet (bucketAppend bs k₀ p) k) :
    x ∈ bucketGet bs k ∨ (x = p ∧ k = k₀) := by
  by_cases hk : k = k₀
  · subst hk
    rw [bucketGet_append_self] at h
    rcases List.mem_append.mp h with h1 | h1
    · exact Or.inl h1
    · simp at h1
      exact Or.inr ⟨h1, rfl⟩
  · rw [bucketGet_append_ne bs p hk] at h
    exact Or.inl h

theorem length_bucketGet_append_self (bs : List (Key × List String)) (k : Key) (p : String) :
    (bucketGet (bucketAppend bs k p) k).length = (bucketGet bs k).length + 1 := by
  rw [bucketGet_append_self]
  simp

/-! ## A spill-first reformulation of `insert`

In the Python code, when an owned entry is displaced, the key is marked
spilled only after the inserted file has already been re-inserted one
level deeper.  That recursive call never touches keys of the current
depth, so the spill commutes with it; `insertO` performs the spill first,
which keeps the spilled-prefix invariants valid at every call boundary.
`insertFuel_eq_insertO` proves the two orderings compute the same
state. -/

def insertO (hash : List Nat → String) (fs : String → List Nat) :
    Nat → DupState → String → Nat → DupState
  | 0, st, _, _ => st
  | fuel+1, st, p, depth =>
    if (keyAt hash fs p depth).length < depth then
      { st with buckets := bucketAppend st.buckets (keyAt hash fs p depth) p,
                dupEvents := st.dupEvents + 1 }
    else
      match st.prefixes (keyAt hash fs p depth) with
      | none => setOwner st (keyAt hash fs p depth) p
      | some .spilled => insertO hash fs fuel st p (depth+1)
      | some (.owned q) =>
        insertO hash fs fuel
          (insertO hash fs fuel (setSpilled st (keyAt hash fs p depth)) p (depth+1))
          q (depth+1)

theorem setOwner_setSpilled_comm (st : DupState) (k₀ k : Key) (p : String)
    (h : k₀ ≠ k) : setOwner (setSpilled st k) k₀ p = setSpilled (setOwner st k₀ p) k := by
  refine DupState.ext ?_ rfl rfl rfl
  funext k'
  show (if k' = k₀ then some (Entry.owned p)
        else if k' = k then some Entry.spilled else st.prefixes k')
      = (if k' = k then some Entry.spilled
        else if k' = k₀ then some (Entry.owned p) else st.prefixes k')
  by_cases h1 : k' = k₀
  · subst h1
    rw [if_pos rfl, if_neg h, if_pos rfl]
  · rw [if_neg h1]
    by_cases h2 : k' = k
    · rw [if_pos h2, if_pos h2]
    · rw [if_neg h2, if_neg h2, if_neg h1]

theorem setSpilled_setSpilled_comm (st : DupState) (k₀ k : Key) :
    setSpilled (setSpilled st k) k₀ = setSpilled (setSpilled st k₀) k := by
  refine DupState.ext ?_ rfl rfl rfl
  funext k'
  show (if k' = k₀ then some Entry.spilled
        else if k' = k then some Entry.spilled else st.prefixes k')
      = (if k' = k then some Entry.spilled
        else if k' = k₀ then some Entry.spilled else st.prefixes k')
  by_cases h1 : k' = k₀ <;> by_cases h2 : k' = k <;> simp [h1, h2]

/-- Keys touched from depth `d` on are longer than `k`, so a spill of `k`
commutes with the rest of an insertion. -/
theorem insertFuel_setSpilled (hash : List Nat → String) (fs : String → List Nat) :
    ∀ fuel st p d k, k.length < d →
    insertFuel hash fs fuel (setSpilled st k) p d
      = setSpilled (insertFuel hash fs fuel st p d) k := by
  intro fuel
  induction fuel with
  | zero => intro st p d k _; rfl
  | succ fuel ih =>
    intro st p d k hk
    by_cases hshort : (keyAt hash fs p d).length < d
    · show (if (keyAt hash fs p d).length < d then _ else _) = setSpilled (if (keyAt hash fs p d).length < d then _ else _) k
      rw [if_pos hshort, if_pos hshort]
      rfl
    · have hne : keyAt hash fs p d ≠ k := by
        intro he
        rw [keyAt_length] at hshort
        rw [← he] at hk
        rw [keyAt_length] at hk
        omega
      show (if (keyAt hash fs p d).length < d then _ else _) = setSpilled (if (keyAt hash fs p d).length < d then _ else _) k
      rw [if_neg hshort, if_neg hshort]
      have hlook : (setSpilled st k).prefixes (keyAt hash fs p d) = st.prefixes (keyAt hash fs p d) := by
        rw [setSpilled_prefixes, if_neg hne]
      rw [hlook]
      cases hv : st.prefixes (keyAt hash fs p d) with
      | none =>
        simp only []
        exact setOwner_setSpilled_comm st (keyAt hash fs p d) k p hne
      | some e =>
        cases e with
        | spilled =>
          simp only []
          exact ih st p (d+1) k (by omega)
        | owned q =>
          simp only []
          rw [ih st p (d+1) k (by omega)]
          rw [setSpilled_setSpilled_comm]
          rw [ih _ q (d+1) k (by omega)]

theorem insertFuel_eq_insertO (hash : List Nat → String) (fs : String → List Nat) :
    ∀ fuel st p d, insertFuel hash fs fuel st p d = insertO hash fs fuel st p d := by
  intro fuel
  induction fuel with
  | zero => intro st p d; rfl
  | succ fuel ih =>
    intro st p d
    show (if (keyAt hash fs p d).length < d then _ else _) = insertO hash fs (fuel+1) st p d
    simp only [insertO]
    by_cases hshort : (keyAt hash fs p d).length < d
    · rw [if_pos hshort, if_pos hshort]
    · rw [if_neg hshort, if_neg hshort]
      cases hv : st.prefixes (keyAt hash fs p d) with
      | none => simp only []
      | some e =>
        cases e with
        | spilled =>
          simp only []
          exact ih st p (d+1)
        | owned q =>
          simp only []
          have hlen : (keyAt hash fs p d).length < d + 1 := by
            rw [keyAt_length]
            omega
          rw [← insertFuel_setSpilled hash fs fuel st p (d+1) _ hlen, ih, ih]

/-- Monotone facts about one insertion: spilled entries stay spilled,
occupied entries stay occupied, bucket contents and lengths only grow. -/
theorem insertO_mono (hash : List Nat → String) (fs : String → List Nat) :
    ∀ fuel st p d,
    (∀ k, st.prefixes k = some .spilled →
      (insertO hash fs fuel st p d).prefixes k = some .spilled) ∧
    (∀ k, st.prefixes k ≠ none → (insertO hash fs fuel st p d).prefixes k ≠ none) ∧
    (∀ k x, x ∈ bucketGet st.buckets k →
      x ∈ bucketGet (insertO hash fs fuel st p d).buckets k) ∧
    (∀ k, (bucketGet st.buckets k).length ≤
      (bucketGet (insertO hash fs fuel st p d).buckets k).length) := by
  intro fuel
  induction fuel with
  | zero =>
    intro st p d
    exact ⟨fun k h => h, fun k h => h, fun k x h => h, fun k => Nat.le_refl _⟩
  | succ fuel ih =>
    intro st p d
    simp only [insertO]
    by_cases hshort : (keyAt hash fs p d).length < d
    · rw [if_pos hshort]
      refine ⟨fun k h => h, fun k h => h, ?_, ?_⟩
      · intro k x hx
        by_cases hk : k = keyAt hash fs p d
        · subst hk
          rw [bucketGet_append_self]
          exact List.mem_append.mpr (Or.inl hx)
        · rw [bucketGet_append_ne _ _ hk]
          exact hx
      · intro k
        by_cases hk : k = keyAt hash fs p d
        · subst hk
          rw [length_bucketGet_append_self]
          omega
        · rw [bucketGet_append_ne _ _ hk]
    · rw [if_neg hshort]
      cases hv : st.prefixes (keyAt hash fs p d) with
      | none =>
        simp only []
        refine ⟨?_, ?_, fun k x h => h, fun k => Nat.le_refl _⟩
        · intro k h
          rw [setOwner_prefixes]
          by_cases hk : k = keyAt hash fs p d
          · rw [hk] at h
            rw [hv] at h
            cases h
          · rw [if_neg hk]
            exact h
        · intro k h
          rw [setOwner_prefixes]
          by_cases hk : k = keyAt hash fs p d
          · rw [if_pos hk]
            simp
          · rw [if_neg hk]
            exact h
      | some e =>
        cases e with
        | spilled =>
          simp only []
          exact ih st p (d+1)
        | owned q =>
          simp only []
          obtain ⟨ih1a, ih1b, ih1c, ih1d⟩ := ih (setSpilled st (keyAt hash fs p d)) p (d+1)
          obtain ⟨ih2a, ih2b, ih2c, ih2d⟩ :=
            ih (insertO hash fs fuel (setSpilled st (keyAt hash fs p d)) p (d+1)) q (d+1)
          refine ⟨?_, ?_, ?_, ?_⟩
          · intro k h
            apply ih2a
            apply ih1a
            rw [setSpilled_prefixes]
            by_cases hk : k = keyAt hash fs p d
            · rw [if_pos hk]
            · rw [if_neg hk]
              exact h
          · intro k h
            apply ih2b
            apply ih1b
            rw [setSpilled_prefixes]
            by_cases hk : k = keyAt hash fs p d
            · rw [if_pos hk]
              simp
            · rw [if_neg hk]
              exact h
          · intro k x hx
            exact ih2c _ _ (ih1c _ _ hx)
          · intro k
            exact Nat.le_trans (ih1d k) (ih2d k)

/-! ## Index invariants -/

/-- Every provisional owner sits at a nonempty prefix of its own
indicator tuple, no longer than the tuple. -/
def OwnedOK (hash : List Nat → String) (fs : String → List Nat) (st : DupState) : Prop :=
  ∀ k q, st.prefixes k = some (.owned q) →
    ∃ d, 1 ≤ d ∧ d ≤ lenT hash fs q ∧ k = keyAt hash fs q d

/-- All proper nonempty prefixes of an owner's key are spilled. -/
def ChainSp (st : DupState) : Prop :=
  ∀ k q, st.prefixes k = some (.owned q) →
    ∀ j, 1 ≤ j → j < k.length → st.prefixes (k.take j) = some .spilled

/-- All nonempty prefixes of a nonempty bucket's key are spilled. -/
def BucketSp (st : DupState) : Prop :=
  ∀ k, bucketGet st.buckets k ≠ [] →
    ∀ j, 1 ≤ j → j ≤ k.length → st.prefixes (k.take j) = some .spilled

/-- The insertion of `p` has reached depth `d`: all shallower nonempty
prefixes of `p`'s tuple are spilled. -/
def ChainUpTo (hash : List Nat → String) (fs : String → List Nat)
    (st : DupState) (p : String) (d : Nat) : Prop :=
  ∀ j, 1 ≤ j → j < d → st.prefixes (keyAt hash fs p j) = some .spilled

/-- All provisional owners come from the universe `U` of processed paths. -/
def OwnersIn (st : DupState) (U : String → Prop) : Prop :=
  ∀ k q, st.prefixes k = some (.owned q) → U q

/-- Every bucketed path comes from `U` and sits under its own full
indicator tuple as key. -/
def BucketsIn (hash : List Nat → String) (fs : String → List Nat)
    (st : DupState) (U : String → Prop) : Prop :=
  ∀ kv, kv ∈ st.buckets → ∀ x, x ∈ kv.2 → U x ∧ kv.1 = indicators hash (fs x)

/-- `p` holds some prefix of depth at least `d₀` of its own tuple, or is
bucketed under its full tuple. -/
def PlacedGe (hash : List Nat → String) (fs : String → List Nat)
    (st : DupState) (p : String) (d₀ : Nat) : Prop :=
  (∃ d, d₀ ≤ d ∧ d ≤ lenT hash fs p ∧
    st.prefixes (keyAt hash fs p d) = some (.owned p)) ∨
  p ∈ bucketGet st.buckets (indicators hash (fs p))

def IsOwner (st : DupState) (p : String) : Prop :=
  ∃ k, st.prefixes k = some (.owned p)

theorem PlacedGe_weaken (hash : List Nat → String) (fs : String → List Nat)
    {st : DupState} {p : String} {d₀ d₁ : Nat} (h : d₀ ≤ d₁)
    (hp : PlacedGe hash fs st p d₁) : PlacedGe hash fs st p d₀ := by
  cases hp with
  | inl hw =>
    obtain ⟨d, h1, h2, h3⟩ := hw
    exact Or.inl ⟨d, Nat.le_trans h h1, h2, h3⟩
  | inr hb => exact Or.inr hb

theorem setSpilled_OwnedOK (hash : List Nat → String) (fs : String → List Nat)
    {st : DupState} (k₀ : Key) (h : OwnedOK hash fs st) :
    OwnedOK hash fs (setSpilled st k₀) := by
  intro k q hk
  rw [setSpilled_prefixes] at hk
  by_cases hke : k = k₀
  · rw [if_pos hke] at hk
    cases hk
  · rw [if_neg hke] at hk
    exact h k q hk

theorem setSpilled_ChainSp {st : DupState} (k₀ : Key) (h : ChainSp st) :
    ChainSp (setSpilled st k₀) := by
  intro k q hk j hj1 hj2
  rw [setSpilled_prefixes] at hk ⊢
  by_cases hke : k = k₀
  · rw [if_pos hke] at hk
    cases hk
  · rw [if_neg hke] at hk
    by_cases hkt : k.take j = k₀
    · rw [if_pos hkt]
    · rw [if_neg hkt]
      exact h k q hk j hj1 hj2

theorem setSpilled_BucketSp {st : DupState} (k₀ : Key) (h : BucketSp st) :
    BucketSp (setSpilled st k₀) := by
  intro k hk j hj1 hj2
  rw [setSpilled_prefixes]
  by_cases hkt : k.take j = k₀
  · rw [if_pos hkt]
  · rw [if_neg hkt]
    exact h k hk j hj1 hj2

theorem setSpilled_OwnersIn {st : DupState} (k₀ : Key) {U : String → Prop}
    (h : OwnersIn st U) : OwnersIn (setSpilled st k₀) U := by
  intro k q hk
  rw [setSpilled_prefixes] at hk
  by_cases hke : k = k₀
  · rw [if_pos hke] at hk
    cases hk
  · rw [if_neg hke] at hk
    exact h k q hk

theorem setSpilled_BucketsIn (hash : List Nat → String) (fs : String → List Nat)
    {st : DupState} (k₀ : Key) {U : String → Prop}
    (h : BucketsIn hash fs st U) : BucketsIn hash fs (setSpilled st k₀) U := h

/-- Every entry of `bucketAppend bs k p` is an old entry, the fresh
entry `(k, [p])`, or an old entry at `k` with `p` appended. -/
theorem mem_bucketAppend {bs : List (Key × List String)} {k : Key} {p : String}
    {kv : Key × List String} (h : kv ∈ bucketAppend bs k p) :
    kv ∈ bs ∨ kv = (k, [p]) ∨ ∃ ps, (k, ps) ∈ bs ∧ kv = (k, ps ++ [p]) := by
  induction bs with
  | nil =>
    simp [bucketAppend] at h
    exact Or.inr (Or.inl h)
  | cons kv' rest ih =>
    obtain ⟨k', ps'⟩ := kv'
    simp only [bucketAppend] at h
    by_cases hke : k' = k
    · rw [if_pos hke] at h
      subst hke
      cases h with
      | head =>
        right
        right
        exact ⟨ps', List.mem_cons_self _ _, rfl⟩
      | tail _ hmem => exact Or.inl (List.mem_cons_of_mem _ hmem)
    · rw [if_neg hke] at h
      cases h with
      | head => exact Or.inl (List.mem_cons_self _ _)
      | tail _ hmem =>
        rcases ih hmem with h1 | h1 | ⟨ps, h1, h2⟩
        · exact Or.inl (List.mem_cons_of_mem _ h1)
        · exact Or.inr (Or.inl h1)
        · exact Or.inr (Or.inr ⟨ps, List.mem_cons_of_mem _ h1, h2⟩)

theorem keyAt_take (hash : List Nat → String) (fs : String → List Nat)
    (p : String) {j d : Nat} (hj : j ≤ d) :
    (keyAt hash fs p d).take j = keyAt hash fs p j := by
  unfold keyAt
  rw [List.take_take, Nat.min_eq_left hj]

theorem keyAt_length_eq (hash : List Nat → String) (fs : String → List Nat)
    (p : String) {d : Nat} (hd : d ≤ lenT hash fs p) :
    (keyAt hash fs p d).length = d := by
  rw [keyAt_length, Nat.min_eq_left hd]

theorem insertO_short (hash : List Nat → String) (fs : String → List Nat)
    (fuel : Nat) (st : DupState) (p : String) (d : Nat)
    (h : (keyAt hash fs p d).length < d) :
    insertO hash fs (fuel+1) st p d =
      { st with buckets := bucketAppend st.buckets (keyAt hash fs p d) p,
                dupEvents := st.dupEvents + 1 } := by
  simp only [insertO]
  rw [if_pos h]

theorem insertO_none (hash : List Nat → String) (fs : String → List Nat)
    (fuel : Nat) (st : DupState) (p : String) (d : Nat)
    (h : ¬ (keyAt hash fs p d).length < d)
    (hv : st.prefixes (keyAt hash fs p d) = none) :
    insertO hash fs (fuel+1) st p d = setOwner st (keyAt hash fs p d) p := by
  simp only [insertO]
  rw [if_neg h, hv]

theorem insertO_spilled (hash : List Nat → String) (fs : String → List Nat)
    (fuel : Nat) (st : DupState) (p : String) (d : Nat)
    (h : ¬ (keyAt hash fs p d).length < d)
    (hv : st.prefixes (keyAt hash fs p d) = some .spilled) :
    insertO hash fs (fuel+1) st p d = insertO hash fs fuel st p (d+1) := by
  simp only [insertO]
  rw [if_neg h, hv]

theorem insertO_owned (hash : List Nat → String) (fs : String → List Nat)
    (fuel : Nat) (st : DupState) (p q : String) (d : Nat)
    (h : ¬ (keyAt hash fs p d).length < d)
    (hv : st.prefixes (keyAt hash fs p d) = some (.owned q)) :
    insertO hash fs (fuel+1) st p d =
      insertO hash fs fuel
        (insertO hash fs fuel (setSpilled st (keyAt hash fs p d)) p (d+1))
        q (d+1) := by
  simp only [insertO]
  rw [if_neg h, hv]

/-- The postcondition of one (spill-first) insertion of `g` at depth `d`:
all index invariants are preserved, new owners are only `g`, `g` is
placed at depth at least `d`, previously placed files stay placed, and
any full-shaped key that this call newly spilled received at least two
bucket appends. -/
def MainPost (hash : List Nat → String) (fs : String → List Nat)
    (st st' : DupState) (g : String) (d : Nat) (U : String → Prop) : Prop :=
  OwnedOK hash fs st' ∧ ChainSp st' ∧ BucketSp st' ∧ OwnersIn st' U ∧
  BucketsIn hash fs st' U ∧
  (∀ x, IsOwner st' x → IsOwner st x ∨ x = g) ∧
  PlacedGe hash fs st' g d ∧
  (∀ p e, PlacedGe hash fs st p e → PlacedGe hash fs st' p e) ∧
  (∀ k, fullShaped k → st'.prefixes k = some .spilled →
    st.prefixes k = some .spilled ∨
    (bucketGet st.buckets k).length + 2 ≤ (bucketGet st'.buckets k).length)

/-- The main induction: a (spill-first) insertion with sufficient fuel
satisfies `MainPost`. -/
theorem insertO_main (hash : List Nat → String) (fs : String → List Nat)
    (U : String → Prop) :
    ∀ fuel st g d, 1 ≤ d → d ≤ lenT hash fs g + 1 →
    lenT hash fs g + 2 ≤ d + fuel →
    OwnedOK hash fs st → ChainSp st → BucketSp st →
    ChainUpTo hash fs st g d → OwnersIn st U → BucketsIn hash fs st U → U g →
    MainPost hash fs st (insertO hash fs fuel st g d) g d U := by
  intro fuel
  induction fuel with
  | zero =>
    intro st g d hd hdle hfuel _ _ _ _ _ _ _
    omega
  | succ fuel ih =>
    intro st g d hd hdle hfuel hO hCS hBS hCH hOI hBI hU
    by_cases hshort : (keyAt hash fs g d).length < d
    · -- indicators exhausted: append to the bucket of the full tuple
      rw [insertO_short hash fs fuel st g d hshort]
      have hlt : lenT hash fs g < d := (keyAt_short_iff hash fs g d).mp hshort
      have hkey : keyAt hash fs g d = indicators hash (fs g) :=
        keyAt_of_lenT_lt hash fs g (Nat.le_of_lt hlt)
      have hkeylen : (keyAt hash fs g d).length = lenT hash fs g := by
        rw [hkey]
        rfl
      refine ⟨hO, hCS, ?_, hOI, ?_, ?_, ?_, ?_, ?_⟩
      · -- BucketSp
        intro k hk j hj1 hj2
        show st.prefixes (k.take j) = some .spilled
        by_cases hkk : k = keyAt hash fs g d
        · subst hkk
          rw [hkeylen] at hj2
          rw [keyAt_take hash fs g (by omega)]
          exact hCH j hj1 (by omega)
        · have hne : bucketGet st.buckets k ≠ [] := by
            rw [← bucketGet_append_ne st.buckets g hkk]
            exact hk
          exact hBS k hne j hj1 hj2
      · -- BucketsIn
        intro kv hkv x hx
        rcases mem_bucketAppend hkv with h1 | h1 | ⟨ps, h1, h2⟩
        · exact hBI kv h1 x hx
        · subst h1
          simp at hx
          subst hx
          exact ⟨hU, hkey⟩
        · subst h2
          rcases List.mem_append.mp hx with h3 | h3
          · have h4 := hBI _ h1 x h3
            exact ⟨h4.1, h4.2⟩
          · simp at h3
            subst h3
            exact ⟨hU, hkey⟩
      · -- IsOwner subset
        intro x hx
        exact Or.inl hx
      · -- PlacedGe
        right
        show g ∈ bucketGet (bucketAppend st.buckets (keyAt hash fs g d) g)
          (indicators hash (fs g))
        rw [← hkey, bucketGet_append_self]
        exact List.mem_append.mpr (Or.inr (List.mem_singleton.mpr rfl))
      · -- preservation
        intro p e hp
        cases hp with
        | inl hw => exact Or.inl hw
        | inr hb =>
          right
          show p ∈ bucketGet (bucketAppend st.buckets (keyAt hash fs g d) g)
            (indicators hash (fs p))
          by_cases hkk : indicators hash (fs p) = keyAt hash fs g d
          · rw [hkk, bucketGet_append_self]
            rw [← hkk]
            exact List.mem_append.mpr (Or.inl hb)
          · rw [bucketGet_append_ne _ _ hkk]
            exact hb
      · -- POST-A: prefixes unchanged
        intro k _ hsp
        exact Or.inl hsp
    · cases hv : st.prefixes (keyAt hash fs g d) with
      | none =>
        rw [insertO_none hash fs fuel st g d hshort hv]
        have hdleT : d ≤ lenT hash fs g := by
          rw [keyAt_length] at hshort
          omega
        have hklen : (keyAt hash fs g d).length = d := keyAt_length_eq hash fs g hdleT
        refine ⟨?_, ?_, ?_, ?_, hBI, ?_, ?_, ?_, ?_⟩
        · -- OwnedOK
          intro k q hk
          rw [setOwner_prefixes] at hk
          by_cases hkk : k = keyAt hash fs g d
          · rw [if_pos hkk] at hk
            injection hk with hk1
            injection hk1 with hk2
            subst hk2
            exact ⟨d, hd, hdleT, hkk⟩
          · rw [if_neg hkk] at hk
            exact hO k q hk
        · -- ChainSp
          intro k q hk j hj1 hj2
          rw [setOwner_prefixes] at hk
          rw [setOwner_prefixes]
          by_cases hkk : k = keyAt hash fs g d
          · rw [if_pos hkk] at hk
            injection hk with hk1
            injection hk1 with hk2
            subst hk2
            subst hkk
            rw [hklen] at hj2
            rw [keyAt_take hash fs g (by omega)]
            have hsp := hCH j hj1 hj2
            have hne : keyAt hash fs g j ≠ keyAt hash fs g d := by
              intro he
              rw [he] at hsp
              rw [hv] at hsp
              cases hsp
            rw [if_neg hne]
            exact hsp
          · rw [if_neg hkk] at hk
            have hsp := hCS k q hk j hj1 hj2
            have hne : k.take j ≠ keyAt hash fs g d := by
              intro he
              rw [he] at hsp
              rw [hv] at hsp
              cases hsp
            rw [if_neg hne]
            exact hsp
        · -- BucketSp
          intro k hk j hj1 hj2
          have hsp := hBS k hk j hj1 hj2
          rw [setOwner_prefixes]
          have hne : k.take j ≠ keyAt hash fs g d := by
            intro he
            rw [he] at hsp
            rw [hv] at hsp
            cases hsp
          rw [if_neg hne]
          exact hsp
        · -- OwnersIn
          intro k q hk
          rw [setOwner_prefixes] at hk
          by_cases hkk : k = keyAt hash fs g d
          · rw [if_pos hkk] at hk
            injection hk with hk1
            injection hk1 with hk2
            subst hk2
            exact hU
          · rw [if_neg hkk] at hk
            exact hOI k q hk
        · -- IsOwner subset
          intro x hx
          obtain ⟨k, hk⟩ := hx
          rw [setOwner_prefixes] at hk
          by_cases hkk : k = keyAt hash fs g d
          · rw [if_pos hkk] at hk
            injection hk with hk1
            injection hk1 with hk2
            exact Or.inr hk2.symm
          · rw [if_neg hkk] at hk
            exact Or.inl ⟨k, hk⟩
        · -- PlacedGe: g owns its depth-d prefix
          left
          refine ⟨d, Nat.le_refl d, hdleT, ?_⟩
          rw [setOwner_prefixes, if_pos rfl]
        · -- preservation
          intro p e hp
          cases hp with
          | inl hw =>
            obtain ⟨dw, he1, he2, he3⟩ := hw
            left
            refine ⟨dw, he1, he2, ?_⟩
            rw [setOwner_prefixes]
            have hne : keyAt hash fs p dw ≠ keyAt hash fs g d := by
              intro he
              rw [he] at he3
              rw [hv] at he3
              cases he3
            rw [if_neg hne]
            exact he3
          | inr hb => exact Or.inr hb
        · -- POST-A
          intro k _ hsp
          rw [setOwner_prefixes] at hsp
          by_cases hkk : k = keyAt hash fs g d
          · rw [if_pos hkk] at hsp
            cases hsp
          · rw [if_neg hkk] at hsp
            exact Or.inl hsp
      | some e =>
        cases e with
        | spilled =>
          rw [insertO_spilled hash fs fuel st g d hshort hv]
          have hdleT : d ≤ lenT hash fs g := by
            rw [keyAt_length] at hshort
            omega
          have hCH' : ChainUpTo hash fs st g (d+1) := by
            intro j hj1 hj2
            by_cases hjd : j = d
            · subst hjd
              exact hv
            · exact hCH j hj1 (by omega)
          obtain ⟨p1, p2, p3, p4, p5, p6, p7, p8, p9⟩ :=
            ih st g (d+1) (by omega) (by omega) (by omega) hO hCS hBS hCH' hOI hBI hU
          exact ⟨p1, p2, p3, p4, p5, p6,
            PlacedGe_weaken hash fs (by omega) p7, p8, p9⟩
        | owned q =>
          rw [insertO_owned hash fs fuel st g q d hshort hv]
          have hdleT : d ≤ lenT hash fs g := by
            rw [keyAt_length] at hshort
            omega
          have hklen : (keyAt hash fs g d).length = d := keyAt_length_eq hash fs g hdleT
          obtain ⟨d', hd'1, hd'2, hkq⟩ := hO _ q hv
          have hd'd : d' = d := by
            have h1 := keyAt_length_eq hash fs q hd'2
            rw [← hkq, hklen] at h1
            omega
          rw [hd'd] at hd'2 hkq
          have hlenqg : lenT hash fs q = lenT hash fs g :=
            lenT_eq_of_keyAt_eq hash fs hd hkq.symm
          have hUq : U q := hOI _ q hv
          have hO2 := setSpilled_OwnedOK hash fs (keyAt hash fs g d) hO
          have hCS2 := setSpilled_ChainSp (keyAt hash fs g d) hCS
          have hBS2 := setSpilled_BucketSp (keyAt hash fs g d) hBS
          have hOI2 := setSpilled_OwnersIn (keyAt hash fs g d) hOI
          have hBI2 : BucketsIn hash fs (setSpilled st (keyAt hash fs g d)) U := hBI
          have hCH2 : ChainUpTo hash fs (setSpilled st (keyAt hash fs g d)) g (d+1) := by
            intro j hj1 hj2
            rw [setSpilled_prefixes]
            by_cases hjk : keyAt hash fs g j = keyAt hash fs g d
            · rw [if_pos hjk]
            · rw [if_neg hjk]
              by_cases hjd : j = d
              · subst hjd
                exact absurd rfl hjk
              · exact hCH j hj1 (by omega)
          obtain ⟨q1, q2, q3, q4, q5, q6, q7, q8, q9⟩ :=
            ih (setSpilled st (keyAt hash fs g d)) g (d+1) (by omega) (by omega)
              (by omega) hO2 hCS2 hBS2 hCH2 hOI2 hBI2 hU
          have hmono3 := insertO_mono hash fs fuel (setSpilled st (keyAt hash fs g d)) g (d+1)
          have hCH3 : ChainUpTo hash fs
              (insertO hash fs fuel (setSpilled st (keyAt hash fs g d)) g (d+1)) q (d+1) := by
            intro j hj1 hj2
            apply hmono3.1
            rw [setSpilled_prefixes]
            by_cases hjk : keyAt hash fs q j = keyAt hash fs g d
            · rw [if_pos hjk]
            · rw [if_neg hjk]
              by_cases hjd : j = d
              · subst hjd
                exact absurd hkq.symm hjk
              · have he : keyAt hash fs q j = keyAt hash fs g j :=
                  keyAt_mono_eq hash fs (by omega) hkq.symm
                rw [he]
                exact hCH j hj1 (by omega)
          obtain ⟨r1, r2, r3, r4, r5, r6, r7, r8, r9⟩ :=
            ih (insertO hash fs fuel (setSpilled st (keyAt hash fs g d)) g (d+1)) q (d+1)
              (by omega) (by omega) (by omega) q1 q2 q3 hCH3 q4 q5 hUq
          have hmono4 := insertO_mono hash fs fuel
            (insertO hash fs fuel (setSpilled st (keyAt hash fs g d)) g (d+1)) q (d+1)
          refine ⟨r1, r2, r3, r4, r5, ?_, ?_, ?_, ?_⟩
          · -- IsOwner subset
            intro x hx
            rcases r6 x hx with hx3 | hxq
            · rcases q6 x hx3 with hx2 | hxg
              · obtain ⟨k, hk⟩ := hx2
                rw [setSpilled_prefixes] at hk
                by_cases hkk : k = keyAt hash fs g d
                · rw [if_pos hkk] at hk
                  cases hk
                · rw [if_neg hkk] at hk
                  exact Or.inl ⟨k, hk⟩
              · exact Or.inr hxg
            · subst hxq
              exact Or.inl ⟨keyAt hash fs g d, hv⟩
          · -- PlacedGe g d
            exact PlacedGe_weaken hash fs (by omega) (r8 g (d+1) q7)
          · -- preservation
            intro p e hp
            cases hp with
            | inl hw =>
              obtain ⟨dw, he1, he2, he3⟩ := hw
              by_cases hwk : keyAt hash fs p dw = keyAt hash fs g d
              · -- the displaced key itself: p = q, re-placed by the last call
                have hpq : p = q := by
                  rw [hwk, hv] at he3
                  injection he3 with he4
                  injection he4 with he5
                  exact he5.symm
                subst hpq
                have hdw : dw = d := by
                  have h1 := keyAt_length_eq hash fs p he2
                  rw [hwk, hklen] at h1
                  omega
                exact PlacedGe_weaken hash fs (by omega) r7
              · apply r8
                apply q8
                refine Or.inl ⟨dw, he1, he2, ?_⟩
                rw [setSpilled_prefixes, if_neg hwk]
                exact he3
            | inr hb =>
              apply r8
              apply q8
              exact Or.inr hb
          · -- POST-A
            intro k hfsh hsp
            by_cases hkk : k = keyAt hash fs g d
            · -- the newly spilled key is full-shaped: both files terminate here
              subst hkk
              obtain ⟨hkfull, hge⟩ := eq_fullKey_of_fullShaped hash fs hd hfsh
              have hdlen : d = lenT hash fs g := by omega
              right
              obtain ⟨f, rfl⟩ : ∃ f, fuel = f + 1 := ⟨fuel - 1, by omega⟩
              have hsh2 : (keyAt hash fs g (d+1)).length < d + 1 := by
                rw [keyAt_length]
                omega
              have hsq2 : (keyAt hash fs q (d+1)).length < d + 1 := by
                rw [keyAt_length]
                omega
              have hkg2 : keyAt hash fs g (d+1) = keyAt hash fs g d := by
                rw [keyAt_of_lenT_lt hash fs g (by omega), hkfull]
              have hkq2 : keyAt hash fs q (d+1) = keyAt hash fs g d := by
                rw [keyAt_of_lenT_lt hash fs q (by omega),
                  ← keyAt_of_lenT_lt hash fs q (show lenT hash fs q ≤ d by omega), ← hkq]
              rw [insertO_short hash fs f (setSpilled st (keyAt hash fs g d)) g (d+1) hsh2,
                  insertO_short hash fs f _ q (d+1) hsq2]
              show (bucketGet st.buckets (keyAt hash fs g d)).length + 2 ≤
                (bucketGet
                  (bucketAppend
                    (bucketAppend st.buckets (keyAt hash fs g (d+1)) g)
                    (keyAt hash fs q (d+1)) q)
                  (keyAt hash fs g d)).length
              rw [hkg2, hkq2, length_bucketGet_append_self, length_bucketGet_append_self]
            · rcases r9 k hfsh hsp with h3sp | h3len
              · rcases q9 k hfsh h3sp with h2sp | h2len
                · rw [setSpilled_prefixes, if_neg hkk] at h2sp
                  exact Or.inl h2sp
                · right
                  have hm := hmono4.2.2.2 k
                  have hb2 : (bucketGet (setSpilled st (keyAt hash fs g d)).buckets k).length
                      = (bucketGet st.buckets k).length := rfl
                  omega
              · right
                have hm := hmono3.2.2.2 k
                have hb2 : (bucketGet (setSpilled st (keyAt hash fs g d)).buckets k).length
                    = (bucketGet st.buckets k).length := rfl
                omega

/-! ## Each path is placed at most once -/

/-- Total number of occurrences of `p` across all buckets. -/
def bcount (st : DupState) (p : String) : Nat :=
  (st.buckets.map (fun kv => kv.2.count p)).sum

/-- `p` occurs at most once in the buckets, and not at all while it still
owns a prefix. -/
def AtMostOnce (st : DupState) (p : String) : Prop :=
  bcount st p ≤ 1 ∧ (IsOwner st p → bcount st p = 0)

theorem bcount_bucketAppend (bs : List (Key × List String)) (k : Key)
    (p x : String) :
    ((bucketAppend bs k p).map (fun kv => kv.2.count x)).sum
      = (bs.map (fun kv => kv.2.count x)).sum + (if p = x then 1 else 0) := by
  induction bs with
  | nil => simp [bucketAppend, List.count_cons, List.count_nil]
  | cons kv rest ih =>
    obtain ⟨k', ps⟩ := kv
    simp only [bucketAppend]
    by_cases hke : k' = k
    · rw [if_pos hke]
      simp [List.count_append, List.count_cons, List.count_nil]
      omega
    · rw [if_neg hke]
      simp only [List.map_cons, List.sum_cons, ih]
      omega

theorem bcount_eq_zero_iff (st : DupState) (x : String) :
    bcount st x = 0 ↔ ∀ kv ∈ st.buckets, x ∉ kv.2 := by
  unfold bcount
  rw [List.sum_eq_zero_iff]
  constructor
  · intro h kv hkv hmem
    have h1 := h (kv.2.count x) (List.mem_map_of_mem _ hkv)
    rw [List.count_eq_zero] at h1
    exact h1 hmem
  · intro h n hn
    rcases List.mem_map.mp hn with ⟨kv, hkv, hkv2⟩
    subst hkv2
    rw [List.count_eq_zero]
    exact h kv hkv

theorem bcount_bucketState (st : DupState) (k : Key) (p x : String) :
    bcount
      { st with buckets := bucketAppend st.buckets k p, dupEvents := st.dupEvents + 1 }
      x
      = bcount st x + (if p = x then 1 else 0) :=
  bcount_bucketAppend st.buckets k p x

/-- Under `OwnedOK` and `ChainSp`, a file owns at most one prefix. -/
theorem owner_unique (hash : List Nat → String) (fs : String → List Nat)
    {st : DupState} (hO : OwnedOK hash fs st) (hCS : ChainSp st)
    {k₁ k₂ : Key} {p : String}
    (h1 : st.prefixes k₁ = some (.owned p)) (h2 : st.prefixes k₂ = some (.owned p)) :
    k₁ = k₂ := by
  obtain ⟨d₁, hd₁1, hd₁2, hk₁⟩ := hO _ _ h1
  obtain ⟨d₂, hd₂1, hd₂2, hk₂⟩ := hO _ _ h2
  rcases Nat.lt_trichotomy d₁ d₂ with h | h | h
  · exfalso
    have hlen₂ : k₂.length = d₂ := by
      rw [hk₂]
      exact keyAt_length_eq hash fs p hd₂2
    have hsp := hCS k₂ p h2 d₁ hd₁1 (by omega)
    rw [hk₂, keyAt_take hash fs p (by omega), ← hk₁, h1] at hsp
    cases hsp
  · subst h
    rw [hk₁, hk₂]
  · exfalso
    have hlen₁ : k₁.length = d₁ := by
      rw [hk₁]
      exact keyAt_length_eq hash fs p hd₁2
    have hsp := hCS k₁ p h1 d₂ hd₂1 (by omega)
    rw [hk₁, keyAt_take hash fs p (by omega), ← hk₂, h2] at hsp
    cases hsp

theorem setSpilled_IsOwner {st : DupState} {k₀ : Key} {p : String}
    (h : IsOwner (setSpilled st k₀) p) : IsOwner st p := by
  obtain ⟨k, hk⟩ := h
  rw [setSpilled_prefixes] at hk
  by_cases hkk : k = k₀
  · rw [if_pos hkk] at hk
    cases hk
  · rw [if_neg hkk] at hk
    exact ⟨k, hk⟩

/-- The freshness induction: inserting a path that is not yet placed
anywhere appends it at most once overall and keeps every path placed at
most once. -/
theorem insertO_once (hash : List Nat → String) (fs : String → List Nat) :
    ∀ fuel st g d, 1 ≤ d → d ≤ lenT hash fs g + 1 →
    lenT hash fs g + 2 ≤ d + fuel →
    OwnedOK hash fs st → ChainSp st → BucketSp st →
    ChainUpTo hash fs st g d →
    OwnersIn st (fun _ => True) → BucketsIn hash fs st (fun _ => True) →
    ¬ IsOwner st g → bcount st g = 0 → (∀ p, AtMostOnce st p) →
    (∀ p, AtMostOnce (insertO hash fs fuel st g d) p) ∧
    (∀ p, p ≠ g → ¬ IsOwner st p →
      bcount (insertO hash fs fuel st g d) p = bcount st p ∧
      ¬ IsOwner (insertO hash fs fuel st g d) p) := by
  intro fuel
  induction fuel with
  | zero =>
    intro st g d hd hdle hfuel
    omega
  | succ fuel ih =>
    intro st g d hd hdle hfuel hO hCS hBS hCH hOI hBI hNotOwn hbc hAMO
    by_cases hshort : (keyAt hash fs g d).length < d
    · rw [insertO_short hash fs fuel st g d hshort]
      have hbc' := fun x => bcount_bucketState st (keyAt hash fs g d) g x
      constructor
      · intro p
        by_cases hpg : p = g
        · subst hpg
          constructor
          · rw [hbc' p, if_pos rfl, hbc]
          · intro how
            exact absurd how hNotOwn
        · obtain ⟨h1a, h1b⟩ := hAMO p
          constructor
          · rw [hbc' p, if_neg (fun he => hpg he.symm)]
            omega
          · intro how
            rw [hbc' p, if_neg (fun he => hpg he.symm)]
            have h2 := h1b how
            omega
      · intro p hpg hpo
        refine ⟨?_, hpo⟩
        rw [hbc' p, if_neg (fun he => hpg he.symm)]
        omega
    · cases hv : st.prefixes (keyAt hash fs g d) with
      | none =>
        rw [insertO_none hash fs fuel st g d hshort hv]
        have howner : ∀ x, IsOwner (setOwner st (keyAt hash fs g d) g) x →
            IsOwner st x ∨ x = g := by
          intro x hx
          obtain ⟨k, hk⟩ := hx
          rw [setOwner_prefixes] at hk
          by_cases hkk : k = keyAt hash fs g d
          · rw [if_pos hkk] at hk
            injection hk with hk1
            injection hk1 with hk2
            exact Or.inr hk2.symm
          · rw [if_neg hkk] at hk
            exact Or.inl ⟨k, hk⟩
        have hbceq : ∀ x, bcount (setOwner st (keyAt hash fs g d) g) x = bcount st x :=
          fun x => rfl
        constructor
        · intro p
          by_cases hpg : p = g
          · subst hpg
            refine ⟨?_, fun _ => by rw [hbceq p, hbc]⟩
            rw [hbceq p, hbc]
            omega
          · have h1 := hAMO p
            refine ⟨by rw [hbceq p]; exact h1.1, ?_⟩
            intro how
            rcases howner p how with h2 | h2
            · rw [hbceq p]
              exact h1.2 h2
            · exact absurd h2 hpg
        · intro p hpg hpo
          refine ⟨hbceq p, ?_⟩
          intro how
          rcases howner p how with h2 | h2
          · exact hpo h2
          · exact hpg h2
      | some e =>
        cases e with
        | spilled =>
          rw [insertO_spilled hash fs fuel st g d hshort hv]
          have hdleT : d ≤ lenT hash fs g := by
            rw [keyAt_length] at hshort
            omega
          have hCH' : ChainUpTo hash fs st g (d+1) := by
            intro j hj1 hj2
            by_cases hjd : j = d
            · subst hjd
              exact hv
            · exact hCH j hj1 (by omega)
          exact ih st g (d+1) (by omega) (by omega) (by omega) hO hCS hBS hCH'
            hOI hBI hNotOwn hbc hAMO
        | owned q =>
          rw [insertO_owned hash fs fuel st g q d hshort hv]
          have hdleT : d ≤ lenT hash fs g := by
            rw [keyAt_length] at hshort
            omega
          have hklen : (keyAt hash fs g d).length = d := keyAt_length_eq hash fs g hdleT
          obtain ⟨d', hd'1, hd'2, hkq⟩ := hO _ q hv
          have hd'd : d' = d := by
            have h1 := keyAt_length_eq hash fs q hd'2
            rw [← hkq, hklen] at h1
            omega
          rw [hd'd] at hd'2 hkq
          have hlenqg : lenT hash fs q = lenT hash fs g :=
            lenT_eq_of_keyAt_eq hash fs hd hkq.symm
          have hqg : q ≠ g := by
            intro he
            exact hNotOwn ⟨keyAt hash fs g d, he ▸ hv⟩
          -- invariants for the spilled state
          have hO2 := setSpilled_OwnedOK hash fs (keyAt hash fs g d) hO
          have hCS2 := setSpilled_ChainSp (keyAt hash fs g d) hCS
          have hBS2 := setSpilled_BucketSp (keyAt hash fs g d) hBS
          have hOI2 := setSpilled_OwnersIn (keyAt hash fs g d) hOI
          have hBI2 : BucketsIn hash fs (setSpilled st (keyAt hash fs g d)) (fun _ => True) := hBI
          have hCH2 : ChainUpTo hash fs (setSpilled st (keyAt hash fs g d)) g (d+1) := by
            intro j hj1 hj2
            rw [setSpilled_prefixes]
            by_cases hjk : keyAt hash fs g j = keyAt hash fs g d
            · rw [if_pos hjk]
            · rw [if_neg hjk]
              by_cases hjd : j = d
              · subst hjd
                exact absurd rfl hjk
              · exact hCH j hj1 (by omega)
          have hNotOwn2 : ¬ IsOwner (setSpilled st (keyAt hash fs g d)) g :=
            fun h => hNotOwn (setSpilled_IsOwner h)
          have hNotOwn2q : ¬ IsOwner (setSpilled st (keyAt hash fs g d)) q := by
            intro h
            obtain ⟨k, hk⟩ := h
            rw [setSpilled_prefixes] at hk
            by_cases hkk : k = keyAt hash fs g d
            · rw [if_pos hkk] at hk
              cases hk
            · rw [if_neg hkk] at hk
              exact hkk (owner_unique hash fs hO hCS hk hv)
          have hbc2 : ∀ x, bcount (setSpilled st (keyAt hash fs g d)) x = bcount st x :=
            fun x => rfl
          have hAMO2 : ∀ p, AtMostOnce (setSpilled st (keyAt hash fs g d)) p := by
            intro p
            have h1 := hAMO p
            exact ⟨by rw [hbc2 p]; exact h1.1,
              fun how => by rw [hbc2 p]; exact h1.2 (setSpilled_IsOwner how)⟩
          obtain ⟨ih1a, ih1b⟩ := ih (setSpilled st (keyAt hash fs g d)) g (d+1)
            (by omega) (by omega) (by omega) hO2 hCS2 hBS2 hCH2 hOI2 hBI2
            hNotOwn2 (by rw [hbc2 g]; exact hbc) hAMO2
          -- the structural postconditions of the g-call
          obtain ⟨q1, q2, q3, q4, q5, q6, q7, q8, q9⟩ :=
            insertO_main hash fs (fun _ => True) fuel (setSpilled st (keyAt hash fs g d)) g (d+1)
              (by omega) (by omega) (by omega) hO2 hCS2 hBS2 hCH2 hOI2 hBI2 trivial
          have hmono3 := insertO_mono hash fs fuel (setSpilled st (keyAt hash fs g d)) g (d+1)
          have hCH3 : ChainUpTo hash fs
              (insertO hash fs fuel (setSpilled st (keyAt hash fs g d)) g (d+1)) q (d+1) := by
            intro j hj1 hj2
            apply hmono3.1
            rw [setSpilled_prefixes]
            by_cases hjk : keyAt hash fs q j = keyAt hash fs g d
            · rw [if_pos hjk]
            · rw [if_neg hjk]
              by_cases hjd : j = d
              · subst hjd
                exact absurd hkq.symm hjk
              · have he : keyAt hash fs q j = keyAt hash fs g j :=
                  keyAt_mono_eq hash fs (by omega) hkq.symm
                rw [he]
                exact hCH j hj1 (by omega)
          have hq3 := ih1b q hqg hNotOwn2q
          obtain ⟨ih2a, ih2b⟩ := ih
            (insertO hash fs fuel (setSpilled st (keyAt hash fs g d)) g (d+1)) q (d+1)
            (by omega) (by omega) (by omega) q1 q2 q3 hCH3 q4 q5 hq3.2
            (by rw [hq3.1, hbc2 q]; exact (hAMO q).2 ⟨keyAt hash fs g d, hv⟩) ih1a
          constructor
          · exact ih2a
          · intro p hpg hpo
            have hpq : p ≠ q := by
              intro he
              subst he
              exact hpo ⟨keyAt hash fs g d, hv⟩
            have hpo2 : ¬ IsOwner (setSpilled st (keyAt hash fs g d)) p :=
              fun h => hpo (setSpilled_IsOwner h)
            have h3 := ih1b p hpg hpo2
            have h4 := ih2b p hpq h3.2
            exact ⟨by rw [h4.1, h3.1, hbc2 p], h4.2⟩

/-! ## Progress counters and bucket well-formedness -/

/-- Total number of bucketed paths (with multiplicity): the number of
appends performed, hence of duplicate-found callback invocations. -/
def bucketSizeSum (bs : List (Key × List String)) : Nat :=
  (bs.map (fun kv => kv.2.length)).sum

theorem bucketSizeSum_append (bs : List (Key × List String)) (k : Key) (p : String) :
    bucketSizeSum (bucketAppend bs k p) = bucketSizeSum bs + 1 := by
  induction bs with
  | nil => simp [bucketAppend, bucketSizeSum]
  | cons kv rest ih =>
    obtain ⟨k', ps⟩ := kv
    simp only [bucketAppend]
    by_cases hke : k' = k
    · rw [if_pos hke]
      simp [bucketSizeSum]
      omega
    · rw [if_neg hke]
      simp only [bucketSizeSum, List.map_cons, List.sum_cons] at *
      omega

/-- The duplicate-found counter always equals the total bucket size: the
callback fires exactly once per append, at append time. -/
theorem insertO_dupEvents (hash : List Nat → String) (fs : String → List Nat) :
    ∀ fuel st p d, st.dupEvents = bucketSizeSum st.buckets →
    (insertO hash fs fuel st p d).dupEvents
      = bucketSizeSum (insertO hash fs fuel st p d).buckets := by
  intro fuel
  induction fuel with
  | zero => intro st p d h; exact h
  | succ fuel ih =>
    intro st p d h
    by_cases hshort : (keyAt hash fs p d).length < d
    · rw [insertO_short hash fs fuel st p d hshort]
      show st.dupEvents + 1 = bucketSizeSum (bucketAppend st.buckets (keyAt hash fs p d) p)
      rw [bucketSizeSum_append, h]
    · cases hv : st.prefixes (keyAt hash fs p d) with
      | none =>
        rw [insertO_none hash fs fuel st p d hshort hv]
        exact h
      | some e =>
        cases e with
        | spilled =>
          rw [insertO_spilled hash fs fuel st p d hshort hv]
          exact ih st p (d+1) h
        | owned q =>
          rw [insertO_owned hash fs fuel st p q d hshort hv]
          exact ih _ q (d+1) (ih _ p (d+1) h)

theorem insertO_filesProcessed (hash : List Nat → String) (fs : String → List Nat) :
    ∀ fuel st p d,
    (insertO hash fs fuel st p d).filesProcessed = st.filesProcessed := by
  intro fuel
  induction fuel with
  | zero => intro st p d; rfl
  | succ fuel ih =>
    intro st p d
    by_cases hshort : (keyAt hash fs p d).length < d
    · rw [insertO_short hash fs fuel st p d hshort]
    · cases hv : st.prefixes (keyAt hash fs p d) with
      | none => rw [insertO_none hash fs fuel st p d hshort hv]; rfl
      | some e =>
        cases e with
        | spilled =>
          rw [insertO_spilled hash fs fuel st p d hshort hv]
          exact ih st p (d+1)
        | owned q =>
          rw [insertO_owned hash fs fuel st p q d hshort hv]
          rw [ih _ q (d+1), ih _ p (d+1)]
          rfl

/-- Bucket entries have pairwise distinct keys and nonempty path lists. -/
def BucketsWF (bs : List (Key × List String)) : Prop :=
  (bs.map Prod.fst).Nodup ∧ ∀ kv ∈ bs, kv.2 ≠ []

theorem mem_keys_bucketAppend {bs : List (Key × List String)} {k x : Key} {p : String}
    (h : x ∈ (bucketAppend bs k p).map Prod.fst) :
    x ∈ bs.map Prod.fst ∨ x = k := by
  induction bs with
  | nil =>
    simp [bucketAppend] at h
    exact Or.inr h
  | cons kv rest ih =>
    obtain ⟨k', ps⟩ := kv
    simp only [bucketAppend] at h
    by_cases hke : k' = k
    · rw [if_pos hke] at h
      simp at h
      rcases h with h | h
      · exact Or.inl (by simp [h])
      · exact Or.inl (by simp; exact Or.inr h)
    · rw [if_neg hke] at h
      simp at h
      rcases h with h | h
      · exact Or.inl (by simp [h])
      · rcases ih (by simpa using h) with h1 | h1
        · exact Or.inl (by simp at h1 ⊢; exact Or.inr h1)
        · exact Or.inr h1

theorem bucketAppend_WF {bs : List (Key × List String)} (k : Key) (p : String)
    (h : BucketsWF bs) : BucketsWF (bucketAppend bs k p) := by
  obtain ⟨h1, h2⟩ := h
  induction bs with
  | nil =>
    refine ⟨by simp [bucketAppend], ?_⟩
    intro kv hkv
    simp [bucketAppend] at hkv
    subst hkv
    simp
  | cons kv rest ih =>
    obtain ⟨k', ps⟩ := kv
    simp only [bucketAppend]
    by_cases hke : k' = k
    · rw [if_pos hke]
      refine ⟨by simpa using h1, ?_⟩
      intro kv2 hkv2
      cases hkv2 with
      | head => simp
      | tail _ hmem => exact h2 kv2 (List.mem_cons_of_mem _ hmem)
    · rw [if_neg hke]
      simp only [List.map_cons, List.nodup_cons] at h1
      have ihr := ih h1.2 (fun kv hkv => h2 kv (List.mem_cons_of_mem _ hkv))
      refine ⟨?_, ?_⟩
      · simp only [List.map_cons, List.nodup_cons]
        refine ⟨?_, ihr.1⟩
        intro hmem
        rcases mem_keys_bucketAppend hmem with hh | hh
        · exact h1.1 hh
        · exact hke hh
      · intro kv2 hkv2
        cases hkv2 with
        | head => exact h2 (k', ps) (List.mem_cons_self _ _)
        | tail _ hmem => exact ihr.2 kv2 hmem

theorem insertO_BucketsWF (hash : List Nat → String) (fs : String → List Nat) :
    ∀ fuel st p d, BucketsWF st.buckets →
    BucketsWF (insertO hash fs fuel st p d).buckets := by
  intro fuel
  induction fuel with
  | zero => intro st p d h; exact h
  | succ fuel ih =>
    intro st p d h
    by_cases hshort : (keyAt hash fs p d).length < d
    · rw [insertO_short hash fs fuel st p d hshort]
      exact bucketAppend_WF _ p h
    · cases hv : st.prefixes (keyAt hash fs p d) with
      | none =>
        rw [insertO_none hash fs fuel st p d hshort hv]
        exact h
      | some e =>
        cases e with
        | spilled =>
          rw [insertO_spilled hash fs fuel st p d hshort hv]
          exact ih st p (d+1) h
        | owned q =>
          rw [insertO_owned hash fs fuel st p q d hshort hv]
          exact ih _ q (d+1) (ih _ p (d+1) h)

/-- The first matching entry is an actual entry of the list. -/
theorem bucketGet_mem_of_ne_nil {bs : List (Key × List String)} {k : Key}
    (h : bucketGet bs k ≠ []) : (k, bucketGet bs k) ∈ bs := by
  induction bs with
  | nil => exact absurd rfl h
  | cons kv rest ih =>
    obtain ⟨k', ps⟩ := kv
    simp only [bucketGet] at h ⊢
    by_cases hke : k' = k
    · rw [if_pos hke] at h ⊢
      subst hke
      exact List.mem_cons_self _ _
    · rw [if_neg hke] at h ⊢
      exact List.mem_cons_of_mem _ (ih h)

/-- With distinct keys, reading an entry's key returns its list. -/
theorem bucketGet_of_mem {bs : List (Key × List String)} {kv : Key × List String}
    (hwf : (bs.map Prod.fst).Nodup) (h : kv ∈ bs) : bucketGet bs kv.1 = kv.2 := by
  induction bs with
  | nil => cases h
  | cons kv' rest ih =>
    obtain ⟨k', ps⟩ := kv'
    simp only [List.map_cons, List.nodup_cons] at hwf
    cases h with
    | head =>
      simp [bucketGet]
    | tail _ hmem =>
      simp only [bucketGet]
      by_cases hke : k' = kv.1
      · exfalso
        apply hwf.1
        rw [hke]
        exact List.mem_map_of_mem Prod.fst hmem
      · rw [if_neg hke]
        exact ih hwf.2 hmem

/-! ## The insertion loop -/

def stepO (hash : List Nat → String) (fs : String → List Nat)
    (st : DupState) (p : String) : DupState :=
  let st' := insertO hash fs (lenT hash fs p + 1) st p 1
  { st' with filesProcessed := st'.filesProcessed + 1 }

theorem stepIns_eq_stepO (hash : List Nat → String) (fs : String → List Nat)
    (st : DupState) (p : String) : stepIns hash fs st p = stepO hash fs st p := by
  unfold stepIns stepO
  rw [insertFuel_eq_insertO]

theorem processAll_eq_foldO (hash : List Nat → String) (fs : String → List Nat)
    (paths : List String) :
    processAll hash fs paths = List.foldl (stepO hash fs) initState paths := by
  unfold processAll
  have h : ∀ (l : List String) (st : DupState),
      List.foldl (stepIns hash fs) st l = List.foldl (stepO hash fs) st l := by
    intro l
    induction l with
    | nil => intro st; rfl
    | cons x xs ih =>
      intro st
      rw [List.foldl_cons, List.foldl_cons, stepIns_eq_stepO, ih]
  exact h paths initState

/-- Invariant preservation along the whole insertion loop. -/
theorem foldO_main (hash : List Nat → String) (fs : String → List Nat)
    (P : String → Prop) :
    ∀ rest st, (∀ p, p ∈ rest → P p) →
    OwnedOK hash fs st → ChainSp st → BucketSp st → OwnersIn st P →
    BucketsIn hash fs st P →
    (∀ k, fullShaped k → st.prefixes k = some .spilled →
      2 ≤ (bucketGet st.buckets k).length) →
    OwnedOK hash fs (List.foldl (stepO hash fs) st rest) ∧
    ChainSp (List.foldl (stepO hash fs) st rest) ∧
    BucketSp (List.foldl (stepO hash fs) st rest) ∧
    OwnersIn (List.foldl (stepO hash fs) st rest) P ∧
    BucketsIn hash fs (List.foldl (stepO hash fs) st rest) P ∧
    (∀ k, fullShaped k →
      (List.foldl (stepO hash fs) st rest).prefixes k = some .spilled →
      2 ≤ (bucketGet (List.foldl (stepO hash fs) st rest).buckets k).length) ∧
    (∀ x e, PlacedGe hash fs st x e →
      PlacedGe hash fs (List.foldl (stepO hash fs) st rest) x e) ∧
    (∀ p, p ∈ rest → PlacedGe hash fs (List.foldl (stepO hash fs) st rest) p 1) := by
  intro rest
  induction rest with
  | nil =>
    intro st _ hO hCS hBS hOI hBI hSP
    exact ⟨hO, hCS, hBS, hOI, hBI, hSP, fun x e h => h, by simp⟩
  | cons g rest ih =>
    intro st hP hO hCS hBS hOI hBI hSP
    have hPg : P g := hP g (List.mem_cons_self _ _)
    have hCH1 : ChainUpTo hash fs st g 1 := by
      intro j hj1 hj2
      omega
    obtain ⟨m1, m2, m3, m4, m5, m6, m7, m8, m9⟩ :=
      insertO_main hash fs P (lenT hash fs g + 1) st g 1 (by omega) (by omega)
        (by omega) hO hCS hBS hCH1 hOI hBI hPg
    have hmono := insertO_mono hash fs (lenT hash fs g + 1) st g 1
    have hSP1 : ∀ k, fullShaped k →
        (stepO hash fs st g).prefixes k = some .spilled →
        2 ≤ (bucketGet (stepO hash fs st g).buckets k).length := by
      intro k hfsh hsp
      have hb : (bucketGet (stepO hash fs st g).buckets k).length
          = (bucketGet (insertO hash fs (lenT hash fs g + 1) st g 1).buckets k).length := rfl
      rcases m9 k hfsh hsp with h1 | h1
      · have h2 := hSP k hfsh h1
        have h3 := hmono.2.2.2 k
        omega
      · omega
    rw [List.foldl_cons]
    obtain ⟨r1, r2, r3, r4, r5, r6, r7, r8⟩ :=
      ih (stepO hash fs st g) (fun p hp => hP p (List.mem_cons_of_mem _ hp))
        m1 m2 m3 m4 m5 hSP1
    refine ⟨r1, r2, r3, r4, r5, r6, ?_, ?_⟩
    · intro x e hx
      exact r7 x e (m8 x e hx)
    · intro p hp
      cases hp with
      | head => exact r7 g 1 m7
      | tail _ hmem => exact r8 p hmem

/-- Along the loop over pairwise-distinct paths, every path is placed at
most once. -/
theorem foldO_once (hash : List Nat → String) (fs : String → List Nat) :
    ∀ rest done st, (done ++ rest).Nodup →
    OwnedOK hash fs st → ChainSp st → BucketSp st →
    OwnersIn st (· ∈ done) → BucketsIn hash fs st (· ∈ done) →
    (∀ p, AtMostOnce st p) →
    (∀ p, AtMostOnce (List.foldl (stepO hash fs) st rest) p) := by
  intro rest
  induction rest with
  | nil =>
    intro done st _ _ _ _ _ _ hAMO
    exact hAMO
  | cons g rest ih =>
    intro done st hnd hO hCS hBS hOI hBI hAMO
    have hgdone : g ∉ done := by
      rw [List.nodup_append] at hnd
      intro hmem
      exact hnd.2.2 hmem (List.mem_cons_self _ _)
    have hNotOwn : ¬ IsOwner st g := by
      intro h
      obtain ⟨k, hk⟩ := h
      exact hgdone (hOI k g hk)
    have hbc : bcount st g = 0 := by
      rw [bcount_eq_zero_iff]
      intro kv hkv hmem
      exact hgdone ((hBI kv hkv g hmem).1)
    have hCH1 : ChainUpTo hash fs st g 1 := by
      intro j hj1 hj2
      omega
    have hOIT : OwnersIn st (fun _ => True) := fun _ _ _ => trivial
    have hBIT : BucketsIn hash fs st (fun _ => True) := by
      intro kv hkv x hx
      exact ⟨trivial, (hBI kv hkv x hx).2⟩
    obtain ⟨hA1, _⟩ :=
      insertO_once hash fs (lenT hash fs g + 1) st g 1 (by omega) (by omega)
        (by omega) hO hCS hBS hCH1 hOIT hBIT hNotOwn hbc hAMO
    have hOI' : OwnersIn st (· ∈ done ++ [g]) := by
      intro k q hk
      exact List.mem_append.mpr (Or.inl (hOI k q hk))
    have hBI' : BucketsIn hash fs st (· ∈ done ++ [g]) := by
      intro kv hkv x hx
      have h1 := hBI kv hkv x hx
      exact ⟨List.mem_append.mpr (Or.inl h1.1), h1.2⟩
    obtain ⟨m1, m2, m3, m4, m5, m6, m7, m8, m9⟩ :=
      insertO_main hash fs (· ∈ done ++ [g]) (lenT hash fs g + 1) st g 1
        (by omega) (by omega) (by omega) hO hCS hBS hCH1 hOI' hBI'
        (List.mem_append.mpr (Or.inr (List.mem_singleton.mpr rfl)))
    rw [List.foldl_cons]
    have hnd' : ((done ++ [g]) ++ rest).Nodup := by
      rw [List.append_assoc, List.singleton_append]
      exact hnd
    exact ih (done ++ [g]) (stepO hash fs st g) hnd' m1 m2 m3 m4 m5 hA1

theorem initState_inv (hash : List Nat → String) (fs : String → List Nat)
    (P : String → Prop) :
    OwnedOK hash fs initState ∧ ChainSp initState ∧ BucketSp initState ∧
    OwnersIn initState P ∧ BucketsIn hash fs initState P ∧
    (∀ k, fullShaped k → initState.prefixes k = some .spilled →
      2 ≤ (bucketGet initState.buckets k).length) := by
  refine ⟨?_, ?_, ?_, ?_, ?_, ?_⟩
  · intro k q hk
    simp [initState] at hk
  · intro k q hk
    simp [initState] at hk
  · intro k hk
    exact absurd rfl hk
  · intro k q hk
    simp [initState] at hk
  · intro kv hkv
    simp [initState] at hkv
  · intro k _ hk
    simp [initState] at hk

/-- All structural invariants hold of the final index state. -/
theorem processAll_inv (hash : List Nat → String) (fs : String → List Nat)
    (paths : List String) :
    OwnedOK hash fs (processAll hash fs paths) ∧
    ChainSp (processAll hash fs paths) ∧
    BucketSp (processAll hash fs paths) ∧
    OwnersIn (processAll hash fs paths) (· ∈ paths) ∧
    BucketsIn hash fs (processAll hash fs paths) (· ∈ paths) ∧
    (∀ k, fullShaped k → (processAll hash fs paths).prefixes k = some .spilled →
      2 ≤ (bucketGet (processAll hash fs paths).buckets k).length) ∧
    (∀ p, p ∈ paths → PlacedGe hash fs (processAll hash fs paths) p 1) := by
  obtain ⟨i1, i2, i3, i4, i5, i6⟩ := initState_inv hash fs (· ∈ paths)
  rw [processAll_eq_foldO]
  obtain ⟨r1, r2, r3, r4, r5, r6, _, r8⟩ :=
    foldO_main hash fs (· ∈ paths) paths initState (fun p hp => hp)
      i1 i2 i3 i4 i5 i6
  exact ⟨r1, r2, r3, r4, r5, r6, r8⟩

/-- Over pairwise-distinct input paths, every path reaches at most one
bucket slot. -/
theorem processAll_once (hash : List Nat → String) (fs : String → List Nat)
    (paths : List String) (hnd : paths.Nodup) :
    ∀ p, AtMostOnce (processAll hash fs paths) p := by
  obtain ⟨i1, i2, i3, i4, i5, _⟩ := initState_inv hash fs (· ∈ ([] : List String))
  rw [processAll_eq_foldO]
  refine foldO_once hash fs paths [] initState (by simpa using hnd) i1 i2 i3 i4 i5 ?_
  intro p
  have h0 : bcount initState p = 0 := by
    rw [bcount_eq_zero_iff]
    intro kv hkv
    simp [initState] at hkv
  exact ⟨by omega, fun _ => h0⟩

theorem processAll_counters (hash : List Nat → String) (fs : String → List Nat)
    (paths : List String) :
    (processAll hash fs paths).dupEvents
      = bucketSizeSum (processAll hash fs paths).buckets ∧
    (processAll hash fs paths).filesProcessed = paths.length := by
  rw [processAll_eq_foldO]
  have h : ∀ (l : List String) (st : DupState),
      st.dupEvents = bucketSizeSum st.buckets →
      (List.foldl (stepO hash fs) st l).dupEvents
        = bucketSizeSum (List.foldl (stepO hash fs) st l).buckets ∧
      (List.foldl (stepO hash fs) st l).filesProcessed
        = st.filesProcessed + l.length := by
    intro l
    induction l with
    | nil =>
      intro st hst
      exact ⟨hst, by simp⟩
    | cons g rest ih =>
      intro st hst
      rw [List.foldl_cons]
      have h1 : (stepO hash fs st g).dupEvents
          = bucketSizeSum (stepO hash fs st g).buckets :=
        insertO_dupEvents hash fs (lenT hash fs g + 1) st g 1 hst
      obtain ⟨a, b⟩ := ih (stepO hash fs st g) h1
      refine ⟨a, ?_⟩
      rw [b]
      show (insertO hash fs (lenT hash fs g + 1) st g 1).filesProcessed + 1 + rest.length
        = st.filesProcessed + (g :: rest).length
      rw [insertO_filesProcessed]
      simp
      omega
  have h2 := h paths initState (by simp [initState, bucketSizeSum])
  exact ⟨h2.1, by rw [h2.2]; simp [initState]⟩

theorem processAll_WF (hash : List Nat → String) (fs : String → List Nat)
    (paths : List String) : BucketsWF (processAll hash fs paths).buckets := by
  rw [processAll_eq_foldO]
  have h : ∀ (l : List String) (st : DupState), BucketsWF st.buckets →
      BucketsWF (List.foldl (stepO hash fs) st l).buckets := by
    intro l
    induction l with
    | nil => intro st hst; exact hst
    | cons g rest ih =>
      intro st hst
      rw [List.foldl_cons]
      exact ih (stepO hash fs st g)
        (insertO_BucketsWF hash fs (lenT hash fs g + 1) st g 1 hst)
  apply h
  exact ⟨by simp [initState], by simp [initState]⟩

/-- Two distinct input paths with equal indicator tuples both end in the
bucket of that tuple — the heart of "no false split". -/
theorem both_bucketed (hash : List Nat → String) (fs : String → List Nat)
    (paths : List String) {p q : String}
    (hp : p ∈ paths) (hq : q ∈ paths) (hne : p ≠ q)
    (htup : indicators hash (fs p) = indicators hash (fs q)) :
    p ∈ bucketGet (processAll hash fs paths).buckets (indicators hash (fs p)) := by
  obtain ⟨iO, iCS, iBS, _, _, _, iPl⟩ := processAll_inv hash fs paths
  have hkall : ∀ x, keyAt hash fs p x = keyAt hash fs q x := by
    intro x
    unfold keyAt
    rw [htup]
  have hlen : lenT hash fs p = lenT hash fs q := by
    unfold lenT
    rw [htup]
  rcases iPl p hp with hPp | hBp
  · -- p still owns a prefix: impossible given q is also placed
    exfalso
    obtain ⟨dp, hdp1, hdp2, hop⟩ := hPp
    rcases iPl q hq with hPq | hBq
    · obtain ⟨dq, hdq1, hdq2, hoq⟩ := hPq
      rcases Nat.lt_trichotomy dp dq with h | h | h
      · have hlq : (keyAt hash fs q dq).length = dq := keyAt_length_eq hash fs q hdq2
        have hsp := iCS _ q hoq dp (by omega) (by omega)
        rw [keyAt_take hash fs q (by omega), ← hkall dp, hop] at hsp
        cases hsp
      · subst h
        rw [hkall dp] at hop
        rw [hop] at hoq
        injection hoq with h1
        injection h1 with h2
        exact hne h2
      · have hlp : (keyAt hash fs p dp).length = dp := keyAt_length_eq hash fs p hdp2
        have hsp := iCS _ p hop dq (by omega) (by omega)
        rw [keyAt_take hash fs p (by omega), hkall dq, hoq] at hsp
        cases hsp
    · -- q bucketed: the whole chain is spilled, contradicting p's ownership
      have hnil : bucketGet (processAll hash fs paths).buckets
          (indicators hash (fs q)) ≠ [] := List.ne_nil_of_mem hBq
      have hlenq : (indicators hash (fs q)).length = lenT hash fs q := rfl
      have hsp := iBS _ hnil dp (by omega) (by rw [hlenq]; omega)
      have htake : (indicators hash (fs q)).take dp = keyAt hash fs q dp := rfl
      rw [htake, ← hkall dp, hop] at hsp
      cases hsp
  · exact hBp

/-- Every bucket entry in the final state holds at least two paths. -/
theorem bucket_min_two (hash : List Nat → String) (fs : String → List Nat)
    (paths : List String) {kv : Key × List String}
    (hkv : kv ∈ (processAll hash fs paths).buckets) : 2 ≤ kv.2.length := by
  obtain ⟨_, _, iBS, _, iBI, iSP, _⟩ := processAll_inv hash fs paths
  have hwf := processAll_WF hash fs paths
  have hget : bucketGet (processAll hash fs paths).buckets kv.1 = kv.2 :=
    bucketGet_of_mem hwf.1 hkv
  have hne : kv.2 ≠ [] := hwf.2 kv hkv
  obtain ⟨x, hx⟩ := List.exists_mem_of_ne_nil kv.2 hne
  have hbi := iBI kv hkv x hx
  have hfull : fullShaped kv.1 := by
    rw [hbi.2]
    exact fullShaped_indicators hash (fs x)
  have hlen1 : 1 ≤ kv.1.length := by
    rw [hbi.2]
    have h1 := indicators_length hash (fs x)
    unfold tupLen at h1
    omega
  have hsp := iBS kv.1 (by rw [hget]; exact hne) kv.1.length hlen1 (Nat.le_refl _)
  rw [List.take_length] at hsp
  have h2 := iSP kv.1 hfull hsp
  rw [hget] at h2
  exact h2

/-! ## Claim theorems -/

theorem indicators_headD (hash : List Nat → String) (c : List Nat) :
    ((indicators hash c).headD ("", Sum.inl 0)).2 = Sum.inl c.length := rfl

theorem indicators_getLastD (hash : List Nat → String) (c : List Nat) :
    ((indicators hash c).getLastD ("", Sum.inl 0)).2 = Sum.inr (hash c) := by
  rw [List.getLastD_eq_getLast?, indicators_getLast?]
  rfl

theorem mem_findDuplicates (hash : List Nat → String) (fs : String → List Nat)
    (paths : List String) (g : DupGroup) :
    g ∈ findDuplicates hash fs paths ↔
      ∃ kv, kv ∈ (processAll hash fs paths).buckets ∧ g = bucketTriple kv := by
  unfold findDuplicates iterDuplicates
  rw [mem_sortBy, List.mem_map]
  constructor
  · rintro ⟨kv, h1, h2⟩
    exact ⟨kv, h1, h2.symm⟩
  · rintro ⟨kv, h1, h2⟩
    exact ⟨kv, h1, h2.symm⟩

/-- C1 — No false merge: any two paths in one output group have equal
full indicator tuples, whose last element is the full-file hash; and
every bucket key is the complete indicator tuple of one of the input
files, so bucket writes only ever use keys that contain the full hash. -/
theorem claim1_no_false_merge (hash : List Nat → String) (fs : String → List Nat)
    (paths : List String) :
    (∀ g, g ∈ findDuplicates hash fs paths → ∀ p q, p ∈ g.1 → q ∈ g.1 →
      indicators hash (fs p) = indicators hash (fs q) ∧
      (indicators hash (fs p)).getLast? = some ("file hash", Sum.inr (hash (fs p)))) ∧
    (∀ kv, kv ∈ (processAll hash fs paths).buckets →
      ∃ x, x ∈ paths ∧ kv.1 = indicators hash (fs x)) := by
  obtain ⟨_, _, _, _, iBI, _, _⟩ := processAll_inv hash fs paths
  have hwf := processAll_WF hash fs paths
  constructor
  · intro g hg p q hp hq
    rcases (mem_findDuplicates hash fs paths g).mp hg with ⟨kv, hkv, hgdef⟩
    subst hgdef
    have hp' : p ∈ kv.2 := (mem_sortBy strLe kv.2 p).mp hp
    have hq' : q ∈ kv.2 := (mem_sortBy strLe kv.2 q).mp hq
    have h1 := iBI kv hkv p hp'
    have h2 := iBI kv hkv q hq'
    refine ⟨by rw [← h1.2, ← h2.2], indicators_getLast? hash (fs p)⟩
  · intro kv hkv
    obtain ⟨x, hx⟩ := List.exists_mem_of_ne_nil kv.2 (hwf.2 kv hkv)
    have h1 := iBI kv hkv x hx
    exact ⟨x, h1.1, h1.2⟩

/-- C2 — No false split: two distinct input paths with identical byte
content co-occur in one output group whose size field is their length and
whose hash field is the digest of their content. -/
theorem claim2_no_false_split (hash : List Nat → String) (fs : String → List Nat)
    (paths : List String) (p q : String) (hp : p ∈ paths) (hq : q ∈ paths)
    (hne : p ≠ q) (hc : fs p = fs q) :
    ∃ g, g ∈ findDuplicates hash fs paths ∧ p ∈ g.1 ∧ q ∈ g.1 ∧
      g.2.1 = Sum.inl (fs p).length ∧ g.2.2 = Sum.inr (hash (fs p)) := by
  have htup : indicators hash (fs p) = indicators hash (fs q) := by rw [hc]
  have hbp := both_bucketed hash fs paths hp hq hne htup
  have hbq := both_bucketed hash fs paths hq hp hne.symm htup.symm
  rw [← htup] at hbq
  have hnil : bucketGet (processAll hash fs paths).buckets
      (indicators hash (fs p)) ≠ [] := List.ne_nil_of_mem hbp
  have hmem := bucketGet_mem_of_ne_nil hnil
  refine ⟨bucketTriple (indicators hash (fs p),
      bucketGet (processAll hash fs paths).buckets (indicators hash (fs p))), ?_, ?_, ?_, ?_, ?_⟩
  · exact (mem_findDuplicates hash fs paths _).mpr ⟨_, hmem, rfl⟩
  · exact (mem_sortBy strLe _ p).mpr hbp
  · exact (mem_sortBy strLe _ q).mpr hbq
  · exact indicators_headD hash (fs p)
  · exact indicators_getLastD hash (fs p)

/-- C9 — Every bucket in the final index holds at least two paths, so the
output stage never emits a singleton group even without a filter. -/
theorem claim9_buckets_min_two (hash : List Nat → String) (fs : String → List Nat)
    (paths : List String) :
    (∀ kv, kv ∈ (processAll hash fs paths).buckets → 2 ≤ kv.2.length) ∧
    (∀ g, g ∈ findDuplicates hash fs paths → 2 ≤ g.1.length) := by
  constructor
  · intro kv hkv
    exact bucket_min_two hash fs paths hkv
  · intro g hg
    rcases (mem_findDuplicates hash fs paths g).mp hg with ⟨kv, hkv, hgdef⟩
    subst hgdef
    have h1 := bucket_min_two hash fs paths hkv
    have h2 : (sortBy strLe kv.2).length = kv.2.length :=
      (sortBy_perm strLe kv.2).length_eq
    show 2 ≤ (sortBy strLe kv.2).length
    omega

/-- C7 — Progress counting: the duplicate-found callback has fired exactly
once per path appended to a bucket (the counter always equals the total
bucket size, which also equals the sum of the output group sizes — not
the number of groups), and the file-processed callback exactly once per
input path. -/
theorem claim7_progress_counts (hash : List Nat → String) (fs : String → List Nat)
    (paths : List String) :
    (processAll hash fs paths).dupEvents
      = bucketSizeSum (processAll hash fs paths).buckets ∧
    (processAll hash fs paths).dupEvents
      = ((findDuplicates hash fs paths).map (fun g => g.1.length)).sum ∧
    (processAll hash fs paths).filesProcessed = paths.length := by
  obtain ⟨h1, h2⟩ := processAll_counters hash fs paths
  refine ⟨h1, ?_, h2⟩
  rw [h1]
  unfold findDuplicates bucketSizeSum
  have hperm : (iterDuplicates (processAll hash fs paths)).Perm
      (sortBy groupLe (iterDuplicates (processAll hash fs paths))) :=
    (sortBy_perm groupLe _).symm
  rw [← (hperm.map (fun g => g.1.length)).sum_eq]
  unfold iterDuplicates
  rw [List.map_map]
  congr 1
  apply List.map_congr_left
  intro kv _
  show kv.2.length = (sortBy strLe kv.2).length
  exact (sortBy_perm strLe kv.2).length_eq.symm

theorem groupLe_fst (a b : DupGroup) (h : groupLe a b = true) :
    cmpLe (cmpList cmpStr) a.1 b.1 = true := by
  unfold groupLe groupCmp at h
  rw [cmpLe_iff] at h ⊢
  intro hgt
  apply h
  show cmpProd (cmpList cmpStr) (cmpProd valCmp valCmp) a b = .gt
  unfold cmpProd
  rw [hgt]

/-- C5 — Output construction: the returned list equals the sorted list of
triples of the buckets with at least two paths (the missing "fewer than
two" filter is a no-op because no such bucket exists); each triple holds
the bucket's paths sorted, the size from the key's first element and the
hash from its last; and the final list is sorted by path list. -/
theorem claim5_output_construction (hash : List Nat → String) (fs : String → List Nat)
    (paths : List String) :
    findDuplicates hash fs paths
      = sortBy groupLe
          (((processAll hash fs paths).buckets.filter
            (fun kv => decide (2 ≤ kv.2.length))).map bucketTriple) ∧
    (∀ g, g ∈ findDuplicates hash fs paths →
      ∃ kv, kv ∈ (processAll hash fs paths).buckets ∧ 2 ≤ kv.2.length ∧
        g = bucketTriple kv ∧ g.1.Perm kv.2 ∧
        g.1.Pairwise (fun a b => strLe a b = true)) ∧
    (findDuplicates hash fs paths).Pairwise
      (fun a b => cmpLe (cmpList cmpStr) a.1 b.1 = true) := by
  refine ⟨?_, ?_, ?_⟩
  · have hid : (processAll hash fs paths).buckets.filter
        (fun kv => decide (2 ≤ kv.2.length)) = (processAll hash fs paths).buckets := by
      rw [List.filter_eq_self]
      intro kv hkv
      simp
      exact bucket_min_two hash fs paths hkv
    rw [hid]
    rfl
  · intro g hg
    rcases (mem_findDuplicates hash fs paths g).mp hg with ⟨kv, hkv, hgdef⟩
    subst hgdef
    refine ⟨kv, hkv, bucket_min_two hash fs paths hkv, rfl, sortBy_perm strLe kv.2, ?_⟩
    exact sortBy_pairwise (cmpLe_total cmpStr_ok) (fun a b x => cmpLe_trans cmpStr_ok) kv.2
  · apply List.Pairwise.imp (groupLe_fst _ _)
    exact sortBy_pairwise (cmpLe_total groupCmp_ok) (fun a b x => cmpLe_trans groupCmp_ok) _

theorem blockSize_eq : blockSize = 4096 := by decide

/-- Reading `min b (remaining bytes)` equals reading `b` bytes truncated
at end of file. -/
theorem readPart_min (c : List Nat) (pos b : Nat) :
    readPart c pos (min b (c.length - pos)) = readPart c pos b := by
  unfold readPart
  have hlen : (c.drop pos).length = c.length - pos := List.length_drop pos c
  rcases Nat.le_total b (c.length - pos) with h | h
  · rw [Nat.min_eq_left h]
  · rw [Nat.min_eq_right h, ← hlen, List.take_length]
    exact (List.take_of_length_le (by rw [hlen]; exact h)).symm

theorem blocksFrom_eq_range (hash : List Nat → String) (c : List Nat) (n : Nat)
    (hchar : ∀ i, i < n ↔ ((1 <<< i) - 1) * blockSize < c.length) :
    ∀ fuel i, c.length ≤ i + fuel → i ≤ n →
    blocksFrom hash c fuel i = (List.range' i (n - i)).map (fun j =>
      ("block at " ++ toString (((1 <<< j) - 1) * blockSize),
       Sum.inr (hash (readPart c (((1 <<< j) - 1) * blockSize)
         (min blockSize (c.length - ((1 <<< j) - 1) * blockSize)))))) := by
  intro fuel
  induction fuel with
  | zero =>
    intro i h1 h2
    have h3 : i = n := by
      by_contra hne
      have h4 : i < n := by omega
      have h5 := (hchar i).mp h4
      have h6 := blockPos_ge i
      omega
    subst h3
    simp [blocksFrom]
  | succ fuel ih =>
    intro i h1 h2
    simp only [blocksFrom]
    by_cases hp : c.length ≤ ((1 <<< i) - 1) * blockSize
    · rw [if_pos hp]
      have h3 : i = n := by
        by_contra hne
        have h4 : i < n := by omega
        have h5 := (hchar i).mp h4
        omega
      subst h3
      simp
    · rw [if_neg hp]
      have h4 : i < n := by
        by_contra hn
        have h5 : n ≤ i := by omega
        have h6 := (hchar i).mpr (by omega)
        omega
      rw [ih (i+1) (by have := blockPos_ge i; omega) (by omega)]
      have h7 : n - i = (n - (i+1)) + 1 := by omega
      rw [h7, List.range'_succ]
      simp

/-- C4 — Indicator sequence structure: the sequence is exactly the size,
then one block indicator per offset `((2^i)-1)*4096` below the file size
(hashing the 4096-byte region there, truncated at end of file), then the
full-file hash; its length is `2` plus the number of in-range offsets,
its last element is always the full hash, and a zero-length file yields
exactly `[(size, 0), (file hash, hash [])]`. -/
theorem claim4_indicator_structure (hash : List Nat → String) (c : List Nat) :
    ∃ n, (∀ i, i < n ↔ ((2 ^ i) - 1) * 4096 < c.length) ∧
      indicators hash c =
        ("size", Sum.inl c.length)
          :: ((List.range n).map (fun i =>
              ("block at " ++ toString (((2 ^ i) - 1) * 4096),
               Sum.inr (hash (readPart c (((2 ^ i) - 1) * 4096) 4096))))
            ++ [("file hash", Sum.inr (hash c))]) ∧
      (indicators hash c).length = 2 + n ∧
      (indicators hash c).getLast? = some ("file hash", Sum.inr (hash c)) ∧
      (c = [] → indicators hash c = [("size", Sum.inl 0), ("file hash", Sum.inr (hash []))]) := by
  have hex : ∃ i, c.length ≤ ((1 <<< i) - 1) * blockSize := by
    refine ⟨c.length, ?_⟩
    rw [Nat.one_shiftLeft]
    have h1 := Nat.lt_two_pow c.length
    have h2 : c.length ≤ 2 ^ c.length - 1 := by omega
    calc c.length ≤ 2 ^ c.length - 1 := h2
      _ = (2 ^ c.length - 1) * 1 := (Nat.mul_one _).symm
      _ ≤ (2 ^ c.length - 1) * blockSize := Nat.mul_le_mul_left _ (by decide)
  have hchar : ∀ i, i < Nat.find hex ↔ ((1 <<< i) - 1) * blockSize < c.length := by
    intro i
    constructor
    · intro h
      have h1 := Nat.find_min hex h
      omega
    · intro h
      by_contra hn
      have h2 : Nat.find hex ≤ i := by omega
      have h3 := Nat.find_spec hex
      have h4 : (1 <<< Nat.find hex) - 1 ≤ (1 <<< i) - 1 := by
        rw [Nat.one_shiftLeft, Nat.one_shiftLeft]
        have h5 := Nat.pow_le_pow_right (by omega : 1 ≤ 2) h2
        omega
      have h6 : ((1 <<< Nat.find hex) - 1) * blockSize ≤ ((1 <<< i) - 1) * blockSize :=
        Nat.mul_le_mul_right _ h4
      omega
  have hchar2 : ∀ i, i < Nat.find hex ↔ ((2 ^ i) - 1) * 4096 < c.length := by
    intro i
    rw [← Nat.one_shiftLeft i, ← blockSize_eq]
    exact hchar i
  have hmain : indicators hash c =
      ("size", Sum.inl c.length)
        :: ((List.range (Nat.find hex)).map (fun i =>
            ("block at " ++ toString (((2 ^ i) - 1) * 4096),
             Sum.inr (hash (readPart c (((2 ^ i) - 1) * 4096) 4096))))
          ++ [("file hash", Sum.inr (hash c))]) := by
    unfold indicators
    rw [readPart_zero_length]
    congr 2
    rw [blocksFrom_eq_range hash c (Nat.find hex) hchar (c.length + 1) 0
      (by omega) (Nat.zero_le _)]
    rw [Nat.sub_zero, ← List.range_eq_range']
    apply List.map_congr_left
    intro j hj
    rw [List.mem_range] at hj
    rw [Nat.one_shiftLeft, blockSize_eq, readPart_min]
  have hlen : (indicators hash c).length = 2 + Nat.find hex := by
    rw [hmain]
    simp
    omega
  refine ⟨Nat.find hex, hchar2, hmain, hlen, indicators_getLast? hash c, ?_⟩
  intro hc
  subst hc
  have hn0 : Nat.find hex = 0 := by
    by_contra h
    have h1 : 0 < Nat.find hex := by omega
    have h2 := (hchar 0).mp h1
    exact absurd h2 (by decide)
  rw [hmain, hn0]
  simp

theorem insertO_OwnedOK (hash : List Nat → String) (fs : String → List Nat) :
    ∀ fuel st g d, 1 ≤ d → OwnedOK hash fs st →
    OwnedOK hash fs (insertO hash fs fuel st g d) := by
  intro fuel
  induction fuel with
  | zero => intro st g d _ hO; exact hO
  | succ fuel ih =>
    intro st g d hd hO
    by_cases hshort : (keyAt hash fs g d).length < d
    · rw [insertO_short hash fs fuel st g d hshort]
      exact hO
    · cases hv : st.prefixes (keyAt hash fs g d) with
      | none =>
        rw [insertO_none hash fs fuel st g d hshort hv]
        have hdleT : d ≤ lenT hash fs g := by
          rw [keyAt_length] at hshort
          omega
        intro k q hk
        rw [setOwner_prefixes] at hk
        by_cases hkk : k = keyAt hash fs g d
        · rw [if_pos hkk] at hk
          injection hk with hk1
          injection hk1 with hk2
          subst hk2
          exact ⟨d, hd, hdleT, hkk⟩
        · rw [if_neg hkk] at hk
          exact hO k q hk
      | some e =>
        cases e with
        | spilled =>
          rw [insertO_spilled hash fs fuel st g d hshort hv]
          exact ih st g (d+1) (by omega) hO
        | owned q =>
          rw [insertO_owned hash fs fuel st g q d hshort hv]
          exact ih _ q (d+1) (by omega)
            (ih _ g (d+1) (by omega)
              (setSpilled_OwnedOK hash fs (keyAt hash fs g d) hO))

/-- Any two sufficient fuels compute the same insertion. -/
theorem insertO_fuel_eq (hash : List Nat → String) (fs : String → List Nat) :
    ∀ f₁ f₂ st g d, 1 ≤ d → d ≤ lenT hash fs g + 1 →
    lenT hash fs g + 2 ≤ d + f₁ → lenT hash fs g + 2 ≤ d + f₂ →
    OwnedOK hash fs st →
    insertO hash fs f₁ st g d = insertO hash fs f₂ st g d := by
  intro f₁
  induction f₁ with
  | zero =>
    intro f₂ st g d hd hdle h1 h2 hO
    omega
  | succ f₁ ih =>
    intro f₂ st g d hd hdle h1 h2 hO
    cases f₂ with
    | zero => omega
    | succ f₂ =>
      by_cases hshort : (keyAt hash fs g d).length < d
      · rw [insertO_short hash fs f₁ st g d hshort,
            insertO_short hash fs f₂ st g d hshort]
      · have hdleT : d ≤ lenT hash fs g := by
          rw [keyAt_length] at hshort
          omega
        cases hv : st.prefixes (keyAt hash fs g d) with
        | none =>
          rw [insertO_none hash fs f₁ st g d hshort hv,
              insertO_none hash fs f₂ st g d hshort hv]
        | some e =>
          cases e with
          | spilled =>
            rw [insertO_spilled hash fs f₁ st g d hshort hv,
                insertO_spilled hash fs f₂ st g d hshort hv]
            exact ih f₂ st g (d+1) (by omega) (by omega) (by omega) (by omega) hO
          | owned q =>
            rw [insertO_owned hash fs f₁ st g q d hshort hv,
                insertO_owned hash fs f₂ st g q d hshort hv]
            have hklen : (keyAt hash fs g d).length = d := keyAt_length_eq hash fs g hdleT
            obtain ⟨d', hd'1, hd'2, hkq⟩ := hO _ q hv
            have hd'd : d' = d := by
              have hl := keyAt_length_eq hash fs q hd'2
              rw [← hkq, hklen] at hl
              omega
            rw [hd'd] at hd'2 hkq
            have hlenqg : lenT hash fs q = lenT hash fs g :=
              lenT_eq_of_keyAt_eq hash fs hd hkq.symm
            have hO2 := setSpilled_OwnedOK hash fs (keyAt hash fs g d) hO
            have hinner : insertO hash fs f₁ (setSpilled st (keyAt hash fs g d)) g (d+1)
                = insertO hash fs f₂ (setSpilled st (keyAt hash fs g d)) g (d+1) :=
              ih f₂ _ g (d+1) (by omega) (by omega) (by omega) (by omega) hO2
            rw [hinner]
            exact ih f₂ _ q (d+1) (by omega) (by omega) (by omega) (by omega)
              (insertO_OwnedOK hash fs f₂ _ g (d+1) (by omega) hO2)

/-- C8 — Termination of insertion: with any fuel of at least
`lenT g + 2 - d` the recursion computes one fixed result (each recursive
call moves one level deeper and never needs more than depth
`lenT g + 1`, the common tuple length of all colliding files plus one),
and as soon as the requested depth exceeds the indicator sequence length
the file is bucketed immediately. -/
theorem claim8_insert_terminates (hash : List Nat → String) (fs : String → List Nat)
    (st : DupState) (g : String) (d : Nat)
    (hO : OwnedOK hash fs st) (hd : 1 ≤ d) (hdle : d ≤ lenT hash fs g + 1) :
    (∀ f₁ f₂, lenT hash fs g + 2 ≤ d + f₁ → lenT hash fs g + 2 ≤ d + f₂ →
      insertFuel hash fs f₁ st g d = insertFuel hash fs f₂ st g d) ∧
    (∀ fuel, lenT hash fs g < d →
      insertFuel hash fs (fuel+1) st g d =
        { st with buckets := bucketAppend st.buckets (indicators hash (fs g)) g,
                  dupEvents := st.dupEvents + 1 }) := by
  constructor
  · intro f₁ f₂ h1 h2
    rw [insertFuel_eq_insertO, insertFuel_eq_insertO]
    exact insertO_fuel_eq hash fs f₁ f₂ st g d hd hdle h1 h2 hO
  · intro fuel hlt
    rw [insertFuel_eq_insertO]
    have hshort : (keyAt hash fs g d).length < d := by
      rw [keyAt_length]
      omega
    rw [insertO_short hash fs fuel st g d hshort,
      keyAt_of_lenT_lt hash fs g (Nat.le_of_lt hlt)]

/-! ## Fallible file access, for the error-handling claim

`duplicates.py` contains no `try`/`except`: any `OSError` raised by
`path.stat()` or by reading during hashing propagates out of
`find_duplicates`.  We model a filesystem whose per-file access can fail;
a file's insertion always stats the file first (the `size` indicator is
demanded at depth 1), so a failing file raises during its own loop
iteration and the exception aborts the whole call. -/

def fsOf (fsE : String → Except String (List Nat)) : String → List Nat :=
  fun p =>
    match fsE p with
    | .ok c => c
    | .error _ => []

/-- One loop iteration with fallible access: if the file's content cannot
be read the exception propagates, otherwise the iteration proceeds as in
the pure model (re-reads of already-inserted files succeed as before,
`fsE` being a fixed map). -/
def stepE (hash : List Nat → String) (fsE : String → Except String (List Nat))
    (st : DupState) (p : String) : Except String DupState :=
  match fsE p with
  | .error e => .error e
  | .ok _ => .ok (stepIns hash (fsOf fsE) st p)

def processAllE (hash : List Nat → String) (fsE : String → Except String (List Nat))
    (paths : List String) : Except String DupState :=
  paths.foldlM (stepE hash fsE) initState

def findDuplicatesE (hash : List Nat → String) (fsE : String → Except String (List Nat))
    (paths : List String) : Except String (List DupGroup) :=
  (processAllE hash fsE paths).map (fun st => sortBy groupLe (iterDuplicates st))

/-- C6 (amended) — An unreadable file does not stay file-scoped: the
exception propagates out of `find_duplicates` and aborts the entire run;
no group list is returned at all. -/
theorem claim6_error_aborts_run (hash : List Nat → String)
    (fsE : String → Except String (List Nat)) (paths : List String)
    (p : String) (e : String) (hp : p ∈ paths) (he : fsE p = .error e) :
    ∃ e', findDuplicatesE hash fsE paths = .error e' := by
  have h : ∀ (l : List String) (st : DupState), (∃ x ∈ l, ∃ e₀, fsE x = .error e₀) →
      ∃ e', l.foldlM (stepE hash fsE) st = .error e' := by
    intro l
    induction l with
    | nil =>
      intro st h
      simp at h
    | cons g rest ih =>
      intro st h
      cases hg : fsE g with
      | error e₀ =>
        refine ⟨e₀, ?_⟩
        simp [List.foldlM, stepE, hg]
        rfl
      | ok c =>
        obtain ⟨x, hx, e₀, hxe⟩ := h
        have hxrest : x ∈ rest := by
          cases hx with
          | head =>
            rw [hg] at hxe
            cases hxe
          | tail _ hmem => exact hmem
        obtain ⟨e', he'⟩ := ih (stepIns hash (fsOf fsE) st g) ⟨x, hxrest, e₀, hxe⟩
        refine ⟨e', ?_⟩
        simp [List.foldlM, stepE, hg]
        exact he'
  obtain ⟨e', he'⟩ := h paths initState ⟨p, hp, e, he⟩
  refine ⟨e', ?_⟩
  unfold findDuplicatesE processAllE
  rw [he']
  rfl

/-! ## Embedding of `Processor.find_duplicates` from `yadd/__init__.py`

The older implementation in `__init__.py` (class `File` with
`_iter_indicators`, `Processor.insert`, `Processor.find_duplicates`) is
the same algorithm with the progress counters kept on the `Processor`
object; it is embedded separately below, mirroring that source. -/

/-- `block_size = 1 << 12` from `__init__.py`. -/
def procBlockSize : Nat := 1 <<< 12

/-- `File._hash_part` reads at most `size` bytes from `pos`, stopping at
end of file (`copy_file_part`). -/
def procReadPart (c : List Nat) (pos len : Nat) : List Nat :=
  (c.drop pos).take len

/-- The block loop of `File._iter_indicators`. -/
def procBlocksFrom (hash : List Nat → String) (c : List Nat) : Nat → Nat → List Indicator
  | 0, _ => []
  | fuel+1, i =>
    let size := c.length
    let pos := ((1 <<< i) - 1) * procBlockSize
    if size ≤ pos then []
    else ("block at " ++ toString pos,
          Sum.inr (hash (procReadPart c pos (min procBlockSize (size - pos)))))
         :: procBlocksFrom hash c fuel (i+1)

/-- `File._iter_indicators`. -/
def procIndicators (hash : List Nat → String) (c : List Nat) : List Indicator :=
  ("size", Sum.inl c.length)
    :: (procBlocksFrom hash c (c.length + 1) 0
        ++ [("file hash", Sum.inr (hash (procReadPart c 0 c.length)))])

/-- `File.get_indicators_prefix(size)`. -/
def procKeyAt (hash : List Nat → String) (fs : String → List Nat)
    (p : String) (d : Nat) : Key :=
  (procIndicators hash (fs p)).take d

/-- `insert(file, depth)` from `Processor.find_duplicates`; identical
logic, with `self._duplicates_found += 1` instead of the callback. -/
def procInsertFuel (hash : List Nat → String) (fs : String → List Nat) :
    Nat → DupState → String → Nat → DupState
  | 0, st, _, _ => st
  | fuel+1, st, p, depth =>
    let inds := procKeyAt hash fs p depth
    if inds.length < depth then
      { st with buckets := bucketAppend st.buckets inds p,
                dupEvents := st.dupEvents + 1 }
    else
      match st.prefixes inds with
      | none =>
        { st with prefixes := fun k => if k = inds then some (.owned p) else st.prefixes k }
      | some e =>
        let st1 := procInsertFuel hash fs fuel st p (depth+1)
        match e with
        | .spilled => st1
        | .owned q =>
          procInsertFuel hash fs fuel
            { st1 with prefixes := fun k => if k = inds then some .spilled else st1.prefixes k }
            q (depth+1)

/-- One iteration of the `for path in paths_iter` loop:
`insert(File(path, self), 1)` then `self._files_processed += 1`. -/
def procStep (hash : List Nat → String) (fs : String → List Nat)
    (st : DupState) (p : String) : DupState :=
  let st' := procInsertFuel hash fs ((procIndicators hash (fs p)).length + 1) st p 1
  { st' with filesProcessed := st'.filesProcessed + 1 }

/-- `iter_duplicates()` from `Processor.find_duplicates`. -/
def procIterDuplicates (st : DupState) : List DupGroup :=
  st.buckets.map (fun kv =>
    (sortBy strLe kv.2, (kv.1.headD ("", Sum.inl 0)).2, (kv.1.getLastD ("", Sum.inl 0)).2))

/-- `Processor.find_duplicates` (the progress-line rendering touches no
algorithmic state). -/
def procFindDuplicates (hash : List Nat → String) (fs : String → List Nat)
    (paths : List String) : List DupGroup :=
  sortBy groupLe (procIterDuplicates (paths.foldl (procStep hash fs) initState))

theorem procBlocksFrom_eq (hash : List Nat → String) (c : List Nat) :
    ∀ fuel i, procBlocksFrom hash c fuel i = blocksFrom hash c fuel i := by
  intro fuel
  induction fuel with
  | zero => intro i; rfl
  | succ fuel ih =>
    intro i
    simp only [procBlocksFrom, blocksFrom]
    rw [ih (i+1)]
    exact rfl

theorem procIndicators_eq (hash : List Nat → String) (c : List Nat) :
    procIndicators hash c = indicators hash c := by
  unfold procIndicators indicators
  rw [procBlocksFrom_eq]
  exact rfl

theorem procKeyAt_eq (hash : List Nat → String) (fs : String → List Nat)
    (p : String) (d : Nat) : procKeyAt hash fs p d = keyAt hash fs p d := by
  unfold procKeyAt keyAt
  rw [procIndicators_eq]

theorem procInsertFuel_eq (hash : List Nat → String) (fs : String → List Nat) :
    ∀ fuel st p d, procInsertFuel hash fs fuel st p d = insertFuel hash fs fuel st p d := by
  intro fuel
  induction fuel with
  | zero => intro st p d; rfl
  | succ fuel ih =>
    intro st p d
    simp only [procInsertFuel, insertFuel]
    rw [procKeyAt_eq hash fs p d]
    by_cases hshort : (keyAt hash fs p d).length < d
    · rw [if_pos hshort, if_pos hshort]
    · rw [if_neg hshort, if_neg hshort]
      cases hv : st.prefixes (keyAt hash fs p d) with
      | none => rfl
      | some e =>
        cases e with
        | spilled =>
          simp only []
          exact ih st p (d+1)
        | owned q =>
          simp only []
          rw [ih st p (d+1), ih]
          exact rfl

theorem procStep_eq (hash : List Nat → String) (fs : String → List Nat)
    (st : DupState) (p : String) : procStep hash fs st p = stepIns hash fs st p := by
  unfold procStep stepIns lenT
  rw [procInsertFuel_eq, procIndicators_eq]

/-- C10 — The two implementations agree: `find_duplicates` in
`duplicates.py` and `Processor.find_duplicates` in `__init__.py` compute
identical group lists on every input. -/
theorem claim10_implementations_agree (hash : List Nat → String)
    (fs : String → List Nat) (paths : List String) :
    procFindDuplicates hash fs paths = findDuplicates hash fs paths := by
  unfold procFindDuplicates findDuplicates processAll
  have h : ∀ (l : List String) (st : DupState),
      List.foldl (procStep hash fs) st l = List.foldl (stepIns hash fs) st l := by
    intro l
    induction l with
    | nil => intro st; rfl
    | cons x xs ih =>
      intro st
      rw [List.foldl_cons, List.foldl_cons, procStep_eq, ih]
  rw [h paths initState]
  rfl

/-! ## Bucket contents as a function of the input set -/

theorem count_le_sum_counts {bs : List (Key × List String)}
    {kv : Key × List String} (h : kv ∈ bs) (x : String) :
    kv.2.count x ≤ (bs.map (fun kv => kv.2.count x)).sum := by
  induction bs with
  | nil => cases h
  | cons b rest ih =>
    simp only [List.map_cons, List.sum_cons]
    cases h with
    | head => omega
    | tail _ hmem =>
      have h1 := ih hmem
      omega

theorem count_le_bcount (st : DupState) {kv : Key × List String}
    (h : kv ∈ st.buckets) (x : String) : kv.2.count x ≤ bcount st x :=
  count_le_sum_counts h x

theorem exists_other_mem {l : List String} (hnd : l.Nodup) (hlen : 2 ≤ l.length)
    {x : String} (hx : x ∈ l) : ∃ y, y ∈ l ∧ y ≠ x := by
  cases l with
  | nil => simp at hlen
  | cons a t =>
    cases t with
    | nil => simp at hlen
    | cons b t2 =>
      by_cases hxa : x = a
      · refine ⟨b, by simp, ?_⟩
        subst hxa
        rw [List.nodup_cons] at hnd
        intro he
        exact hnd.1 (he ▸ List.mem_cons_self b t2)
      · exact ⟨a, by simp, fun he => hxa he.symm⟩

/-- Over pairwise-distinct inputs, membership of a final bucket is fully
determined by the set of input paths: `x` lies in the bucket of key `k`
iff `k` is `x`'s full tuple and some other input file shares that
tuple. -/
theorem bucket_mem_iff (hash : List Nat → String) (fs : String → List Nat)
    (paths : List String) (hnd : paths.Nodup) (k : Key) (x : String) :
    x ∈ bucketGet (processAll hash fs paths).buckets k ↔
      (x ∈ paths ∧ k = indicators hash (fs x) ∧
       ∃ y, y ∈ paths ∧ y ≠ x ∧ indicators hash (fs y) = indicators hash (fs x)) := by
  constructor
  · intro h
    have hnil : bucketGet (processAll hash fs paths).buckets k ≠ [] :=
      List.ne_nil_of_mem h
    have hkv := bucketGet_mem_of_ne_nil hnil
    obtain ⟨_, _, _, _, iBI, _, _⟩ := processAll_inv hash fs paths
    have h1 := iBI _ hkv x h
    have hlen : 2 ≤ (bucketGet (processAll hash fs paths).buckets k).length :=
      bucket_min_two hash fs paths hkv
    have hAMO := processAll_once hash fs paths hnd
    have hndl : (bucketGet (processAll hash fs paths).buckets k).Nodup := by
      rw [List.nodup_iff_count_le_one]
      intro a
      have h2 := count_le_bcount (processAll hash fs paths) hkv a
      have h3 := (hAMO a).1
      have h4 : (k, bucketGet (processAll hash fs paths).buckets k).2.count a
          = (bucketGet (processAll hash fs paths).buckets k).count a := rfl
      omega
    obtain ⟨y, hy1, hy2⟩ := exists_other_mem hndl hlen h
    have h4 := iBI _ hkv y hy1
    exact ⟨h1.1, h1.2, y, h4.1, hy2, by rw [← h4.2, ← h1.2]⟩
  · rintro ⟨hx, hk, y, hy, hyx, hty⟩
    subst hk
    exact both_bucketed hash fs paths hx hy (fun he => hyx he.symm) hty.symm

/-- Bucket lists never repeat a path when the inputs are
pairwise distinct. -/
theorem bucketGet_nodup (hash : List Nat → String) (fs : String → List Nat)
    (paths : List String) (hnd : paths.Nodup) (k : Key) :
    (bucketGet (processAll hash fs paths).buckets k).Nodup := by
  by_cases h : bucketGet (processAll hash fs paths).buckets k = []
  · rw [h]
    exact List.nodup_nil
  · have hkv := bucketGet_mem_of_ne_nil h
    have hAMO := processAll_once hash fs paths hnd
    rw [List.nodup_iff_count_le_one]
    intro a
    have h2 := count_le_bcount (processAll hash fs paths) hkv a
    have h3 := (hAMO a).1
    have h4 : (k, bucketGet (processAll hash fs paths).buckets k).2.count a
        = (bucketGet (processAll hash fs paths).buckets k).count a := rfl
    omega

/-- The bucket map with each list put into its output order. -/
def sortedEntries (st : DupState) : List (Key × List String) :=
  st.buckets.map (fun kv => (kv.1, sortBy strLe kv.2))

theorem mem_sortedEntries (st : DupState) (hwf : BucketsWF st.buckets)
    (k : Key) (l : List String) :
    (k, l) ∈ sortedEntries st ↔
      bucketGet st.buckets k ≠ [] ∧ l = sortBy strLe (bucketGet st.buckets k) := by
  constructor
  · intro h
    rcases List.mem_map.mp h with ⟨kv, hkv, heq⟩
    have h1 : kv.1 = k := congrArg Prod.fst heq
    have h2 : sortBy strLe kv.2 = l := congrArg Prod.snd heq
    have hget : bucketGet st.buckets kv.1 = kv.2 := bucketGet_of_mem hwf.1 hkv
    rw [← h1, hget]
    exact ⟨hwf.2 kv hkv, h2.symm⟩
  · rintro ⟨h1, h2⟩
    have hkv := bucketGet_mem_of_ne_nil h1
    refine List.mem_map.mpr ⟨(k, bucketGet st.buckets k), hkv, ?_⟩
    rw [h2]

theorem sortedEntries_keys (st : DupState) :
    (sortedEntries st).map Prod.fst = st.buckets.map Prod.fst := by
  unfold sortedEntries
  rw [List.map_map]
  rfl

theorem sortedEntries_nodup (st : DupState) (hwf : BucketsWF st.buckets) :
    (sortedEntries st).Nodup := by
  apply List.Nodup.of_map Prod.fst
  rw [sortedEntries_keys]
  exact hwf.1

/-- Over a fixed file set, permuting the input order leaves the
(output-ordered) bucket map the same up to entry order. -/
theorem sortedEntries_perm (hash : List Nat → String) (fs : String → List Nat)
    (paths₁ paths₂ : List String) (hnd₁ : paths₁.Nodup) (hperm : paths₁.Perm paths₂) :
    (sortedEntries (processAll hash fs paths₁)).Perm
      (sortedEntries (processAll hash fs paths₂)) := by
  have hnd₂ : paths₂.Nodup := hperm.nodup_iff.mp hnd₁
  have hwf₁ := processAll_WF hash fs paths₁
  have hwf₂ := processAll_WF hash fs paths₂
  rw [List.perm_ext_iff_of_nodup (sortedEntries_nodup _ hwf₁) (sortedEntries_nodup _ hwf₂)]
  intro kv
  obtain ⟨k, l⟩ := kv
  rw [mem_sortedEntries _ hwf₁, mem_sortedEntries _ hwf₂]
  have hmem : ∀ x, x ∈ bucketGet (processAll hash fs paths₁).buckets k ↔
      x ∈ bucketGet (processAll hash fs paths₂).buckets k := by
    intro x
    rw [bucket_mem_iff hash fs paths₁ hnd₁ k x, bucket_mem_iff hash fs paths₂ hnd₂ k x]
    constructor
    · rintro ⟨h1, h2, y, hy1, hy2, hy3⟩
      exact ⟨hperm.mem_iff.mp h1, h2, y, hperm.mem_iff.mp hy1, hy2, hy3⟩
    · rintro ⟨h1, h2, y, hy1, hy2, hy3⟩
      exact ⟨hperm.mem_iff.mpr h1, h2, y, hperm.mem_iff.mpr hy1, hy2, hy3⟩
  have hgperm : (bucketGet (processAll hash fs paths₁).buckets k).Perm
      (bucketGet (processAll hash fs paths₂).buckets k) :=
    (List.perm_ext_iff_of_nodup (bucketGet_nodup hash fs paths₁ hnd₁ k)
      (bucketGet_nodup hash fs paths₂ hnd₂ k)).mpr hmem
  have hsort : sortBy strLe (bucketGet (processAll hash fs paths₁).buckets k)
      = sortBy strLe (bucketGet (processAll hash fs paths₂).buckets k) :=
    sortBy_eq_of_perm cmpStr_ok hgperm
  constructor
  · rintro ⟨h1, h2⟩
    refine ⟨?_, by rw [h2, hsort]⟩
    obtain ⟨x, hx⟩ := List.exists_mem_of_ne_nil _ h1
    exact List.ne_nil_of_mem ((hmem x).mp hx)
  · rintro ⟨h1, h2⟩
    refine ⟨?_, by rw [h2, hsort]⟩
    obtain ⟨x, hx⟩ := List.exists_mem_of_ne_nil _ h1
    exact List.ne_nil_of_mem ((hmem x).mpr hx)

/-- C3 — Order independence and determinism: over a fixed set of file
contents, every permutation of the input path sequence produces the same
group list.  (The embedding is a pure function of `hash`, `fs` and the
path list, so repeated runs over the same static file set are literally
the same term and return identical output; the permutation statement is
the substantive half.) -/
theorem claim3_order_independence (hash : List Nat → String) (fs : String → List Nat)
    (paths₁ paths₂ : List String) (hnd : paths₁.Nodup) (hperm : paths₁.Perm paths₂) :
    findDuplicates hash fs paths₁ = findDuplicates hash fs paths₂ := by
  unfold findDuplicates iterDuplicates
  have hmap : ∀ st : DupState, st.buckets.map bucketTriple
      = (sortedEntries st).map (fun kv =>
          (kv.2, (kv.1.headD ("", Sum.inl 0)).2, (kv.1.getLastD ("", Sum.inl 0)).2)) := by
    intro st
    unfold sortedEntries
    rw [List.map_map]
    rfl
  rw [hmap, hmap]
  exact sortBy_eq_of_perm groupCmp_ok
    ((sortedEntries_perm hash fs paths₁ paths₂ hnd hperm).map _)

/-! ## Decidability instances for concrete evaluation -/

instance : BEq IndVal := ⟨fun a b => decide (a = b)⟩

instance : LawfulBEq IndVal :=
  ⟨fun h => of_decide_eq_true h, fun {a} => by simp [BEq.beq]⟩

instance {ε α} [DecidableEq ε] [DecidableEq α] : DecidableEq (Except ε α) := fun a b =>
  match a, b with
  | .error e, .error f =>
    if h : e = f then .isTrue (by rw [h])
    else .isFalse (by intro hc; cases hc; exact h rfl)
  | .error _, .ok _ => .isFalse (by intro hc; cases hc)
  | .ok _, .error _ => .isFalse (by intro hc; cases hc)
  | .ok a, .ok b =>
    if h : a = b then .isTrue (by rw [h])
    else .isFalse (by intro hc; cases hc; exact h rfl)

/-! ## Concrete instances -/

/-- A concrete stand-in digest for witness computations (the claim
theorems hold for every `hash`). -/
def demoHash : List Nat → String :=
  fun c => String.join (c.map (fun n => toString n ++ ","))

/-- A small filesystem: `a` and `b` duplicate, `c` differs in one byte. -/
def demoFs : String → List Nat := fun p =>
  if p = "a" then [1, 2, 3]
  else if p = "b" then [1, 2, 3]
  else if p = "c" then [1, 2, 9]
  else []

/-- A filesystem where reading `b` fails. -/
def demoFsE : String → Except String (List Nat) := fun p =>
  if p = "a" then .ok [1]
  else if p = "b" then .error "io"
  else if p = "c" then .ok [1]
  else .ok []

theorem claim1_witness :
    (["a", "b"], Sum.inl 3, Sum.inr "1,2,3,") ∈ findDuplicates demoHash demoFs ["a", "c", "b"] ∧
    indicators demoHash (demoFs "a") = indicators demoHash (demoFs "b") ∧
    (indicators demoHash (demoFs "a")).getLast?
      = some ("file hash", Sum.inr (demoHash (demoFs "a"))) := by
  refine ⟨by decide, ?_, ?_⟩
  · exact ((claim1_no_false_merge demoHash demoFs ["a", "c", "b"]).1
      (["a", "b"], Sum.inl 3, Sum.inr "1,2,3,") (by decide) "a" "b" (by decide) (by decide)).1
  · exact ((claim1_no_false_merge demoHash demoFs ["a", "c", "b"]).1
      (["a", "b"], Sum.inl 3, Sum.inr "1,2,3,") (by decide) "a" "b" (by decide) (by decide)).2

theorem claim2_witness :
    ∃ g, g ∈ findDuplicates demoHash demoFs ["a", "c", "b"] ∧ "a" ∈ g.1 ∧ "b" ∈ g.1 ∧
      g.2.1 = Sum.inl (demoFs "a").length ∧ g.2.2 = Sum.inr (demoHash (demoFs "a")) :=
  claim2_no_false_split demoHash demoFs ["a", "c", "b"] "a" "b"
    (by decide) (by decide) (by decide) (by decide)

theorem claim3_witness :
    findDuplicates demoHash demoFs ["a", "c", "b"]
      = findDuplicates demoHash demoFs ["b", "a", "c"] :=
  claim3_order_independence demoHash demoFs ["a", "c", "b"] ["b", "a", "c"]
    (by decide) (by decide)

theorem claim4_witness :
    indicators demoHash [] = [("size", Sum.inl 0), ("file hash", Sum.inr (demoHash []))] := by
  obtain ⟨n, _, _, _, _, hempty⟩ := claim4_indicator_structure demoHash []
  exact hempty rfl

theorem claim5_witness :
    findDuplicates demoHash demoFs ["a", "c", "b"]
      = sortBy groupLe
          (((processAll demoHash demoFs ["a", "c", "b"]).buckets.filter
            (fun kv => decide (2 ≤ kv.2.length))).map bucketTriple) :=
  (claim5_output_construction demoHash demoFs ["a", "c", "b"]).1

/-- The counterexample to C6 as stated: with file `b` unreadable, the run
does not continue with the remaining files — it aborts, rather than
returning the group that `a` and `c` (identical content) would form. -/
theorem claim6_counterexample :
    findDuplicatesE demoHash demoFsE ["a", "b", "c"]
      ≠ Except.ok (findDuplicates demoHash (fsOf demoFsE) ["a", "c"]) := by
  decide

theorem claim6_witness :
    ∃ e', findDuplicatesE demoHash demoFsE ["a", "b", "c"] = .error e' :=
  claim6_error_aborts_run demoHash demoFsE ["a", "b", "c"] "b" "io"
    (by decide) (by decide)

theorem claim7_witness :
    (processAll demoHash demoFs ["a", "c", "b"]).dupEvents = 2 ∧
    (processAll demoHash demoFs ["a", "c", "b"]).filesProcessed = 3 := by
  have h := claim7_progress_counts demoHash demoFs ["a", "c", "b"]
  constructor
  · rw [h.1]
    decide
  · rw [h.2.2]
    decide

theorem claim8_witness :
    insertFuel demoHash demoFs 4 initState "a" 1
      = insertFuel demoHash demoFs 9 initState "a" 1 := by
  have hO : OwnedOK demoHash demoFs initState := by
    intro k q hk
    simp [initState] at hk
  have h := claim8_insert_terminates demoHash demoFs initState "a" 1 hO
    (by decide) (by decide)
  exact h.1 4 9 (by decide) (by decide)

theorem claim9_witness :
    2 ≤ ((["a", "b"], Sum.inl 3, Sum.inr "1,2,3,") : DupGroup).1.length :=
  (claim9_buckets_min_two demoHash demoFs ["a", "c", "b"]).2
    (["a", "b"], Sum.inl 3, Sum.inr "1,2,3,") (by decide)

theorem claim10_witness :
    procFindDuplicates demoHash demoFs ["a", "c", "b"]
      = findDuplicates demoHash demoFs ["a", "c", "b"] :=
  claim10_implementations_agree demoHash demoFs ["a", "c", "b"]

end Yadd
